import Mathlib

/-!
# Verification of the feature-extraction core of `extract-spfeatures`

This file gives a shallow embedding, in Lean 4, of the feature-template
engine of the `extract-spfeatures` repository (nfeatures.h and
extract-spfeatures.cc), and proves or refutes a number of claims about
its per-sentence count normalizer, its discovery/prune/renumber/persist
lifecycle, and two representative feature templates (`Edges`/`WSEdges`
and `NGramTree`).

Conventions of the embedding:

* `std::map<K,V>` is modelled as an association list `List (K × V)`
  whose keys are strictly increasing (`OMapSorted`), since `std::map`
  iterates its entries in ascending key order.
* `ext::hash_map<K,V>` is modelled as an association list with distinct
  keys; new keys are appended at the end (iteration order of a hash map
  is unspecified in the source, so the model fixes one order).
* the C++ `Float` (double) feature values are modelled by `ℤ`; all the
  values manipulated by the claims under study are exact small
  integers, so no floating-point rounding is involved.
* `exit(EXIT_FAILURE)` after an error message is modelled by
  `Except.error`: a computation that ends in `Except.error` corresponds
  to a process run that terminates immediately with a nonzero exit
  status.
-/

namespace ExtractSP

/-! ## Ordered maps: the model of `std::map` -/

/-- Keys of an association list. -/
def keys {K V : Type} (m : List (K × V)) : List K := m.map Prod.fst

/-- A `std::map` is iterated in strictly ascending key order. -/
def OMapSorted {K V : Type} [LT K] (m : List (K × V)) : Prop :=
  List.Pairwise (fun a b => a.1 < b.1) m

/-- `m.find(k)`: the value stored at key `k`, if present. -/
def mfind {K V : Type} [DecidableEq K] : List (K × V) → K → Option V
  | [], _ => none
  | (k', v) :: rest, k => if k = k' then some v else mfind rest k

/-- Modelled from the spec: `dfind(m, k)` (from the repository's
`utility.h`, which is not among the given sources) returns the value at
key `k`, or a default-constructed value (`0`) when `k` is absent
("the raw per-candidate count (missing = 0)"). -/
def dfind {K : Type} [DecidableEq K] (m : List (K × ℤ)) (k : K) : ℤ :=
  (mfind m k).getD 0

/-- `m[k] += w` on a `std::map<K, size_type>` with `m` kept in ascending
key order: `operator[]` value-initializes an absent entry to `0` and the
entry is then incremented by `w`. -/
def mapAdd {K : Type} [LinearOrder K] : List (K × ℕ) → K → ℕ → List (K × ℕ)
  | [], k, w => [(k, w)]
  | (k', v) :: rest, k, w =>
    if k < k' then (k, w) :: (k', v) :: rest
    else if k = k' then (k', v + w) :: rest
    else (k', v) :: mapAdd rest k w

/-- Modelled from the spec: `max_element(m, second_lessthan())` (from
`utility.h`, not among the given sources) returns the first entry, in
iteration order, whose second component is maximal: "the bucket with the
highest total weight (ties broken by the value encountered first during
table iteration)".  This is also the semantics of
`std::max_element` with a strict less-than on the second component. -/
def maxElemSecond {K : Type} : List (K × ℕ) → Option (K × ℕ)
  | [] => none
  | x :: xs => some (xs.foldl (fun b y => if b.2 < y.2 then y else b) x)

/-! ## The per-sentence normalizer (`FeatureClass::sentence_parsefidvals`)

For one feature and one sentence, `parse_val : List (ℕ × ℤ)` is the
`C_V` map of the source: it has an entry `(i, v)` exactly when parse `i`
touched the feature, with accumulated value `v`.  The number of parses
of the sentence is `n`. -/

/-- The value→weight table `val_gain` of the relative-count branch of
`sentence_parsefidvals`: for each parse `i < n`, the raw value
`val = dfind(parse_val, i)` contributes `val_gain[val] += 2` and
`val_gain[val-1] += 1`.  `V_C` is `std::map<V, size_type>`, so the
table is kept in ascending order of the value. -/
def valGain (parse_val : List (ℕ × ℤ)) (n : ℕ) : List (ℤ × ℕ) :=
  (List.range n).foldl
    (fun vg i =>
      let val := dfind parse_val i
      mapAdd (mapAdd vg val 2) (val - 1) 1)
    []

/-- `const V& highest_gain_val = max_element(val_gain, second_lessthan())->first`. -/
def highestGainVal (parse_val : List (ℕ × ℤ)) (n : ℕ) : ℤ :=
  match maxElemSecond (valGain parse_val n) with
  | some p => p.1
  | none => 0

/-- The per-feature result of `sentence_parsefidvals` across the `n`
candidates of one sentence: the list of pairs `(i, v)` such that
`parse_fid_val[i][feat] = v` is executed for this feature.  In absolute
mode the raw value is exported where nonzero; in relative mode
`highest_gain_val` is subtracted first and the result exported where
nonzero. -/
def featureExports (absolute_counts : Bool) (parse_val : List (ℕ × ℤ))
    (n : ℕ) : List (ℕ × ℤ) :=
  if absolute_counts then
    (List.range n).filterMap (fun i =>
      let val := dfind parse_val i
      if val ≠ 0 then some (i, val) else none)
  else
    let m := highestGainVal parse_val n
    (List.range n).filterMap (fun i =>
      let val := dfind parse_val i - m
      if val ≠ 0 then some (i, val) else none)

/-- The weight stored for bucket `k` (`0` when the bucket is absent). -/
def wfind {K : Type} [DecidableEq K] (m : List (K × ℕ)) (k : K) : ℕ :=
  (mfind m k).getD 0

/-! ## Lemmas about the ordered-map model -/

theorem mfind_eq_none_of_forall_lt {K V : Type} [LinearOrder K]
    (m : List (K × V)) (k : K) (h : ∀ p ∈ m, k < p.1) : mfind m k = none := by
  induction m with
  | nil => rfl
  | cons p rest ih =>
    obtain ⟨k', v⟩ := p
    simp only [mfind]
    rw [if_neg, ih]
    · intro q hq; exact h q (List.mem_cons_of_mem _ hq)
    · exact ne_of_lt (h (k', v) (List.mem_cons_self _ _))

theorem mapAdd_key_mem {K : Type} [LinearOrder K]
    (m : List (K × ℕ)) (k : K) (w : ℕ) :
    ∀ p ∈ mapAdd m k w, p.1 = k ∨ p.1 ∈ keys m := by
  induction m with
  | nil =>
    intro p hp
    simp only [mapAdd, List.mem_singleton] at hp
    subst hp; exact Or.inl rfl
  | cons q rest ih =>
    obtain ⟨k', v⟩ := q
    intro p hp
    simp only [mapAdd] at hp
    by_cases h1 : k < k'
    · rw [if_pos h1] at hp
      rw [List.mem_cons, List.mem_cons] at hp
      rcases hp with h | h | h
      · subst h; exact Or.inl rfl
      · subst h; exact Or.inr (by simp [keys])
      · refine Or.inr ?_
        simp only [keys, List.map_cons, List.mem_cons]
        exact Or.inr (List.mem_map_of_mem _ h)
    · rw [if_neg h1] at hp
      by_cases h2 : k = k'
      · rw [if_pos h2] at hp
        rw [List.mem_cons] at hp
        rcases hp with h | h
        · subst h; exact Or.inr (by simp [keys])
        · refine Or.inr ?_
          simp only [keys, List.map_cons, List.mem_cons]
          exact Or.inr (List.mem_map_of_mem _ h)
      · rw [if_neg h2] at hp
        rw [List.mem_cons] at hp
        rcases hp with h | h
        · subst h; exact Or.inr (by simp [keys])
        · rcases ih p h with h' | h'
          · exact Or.inl h'
          · refine Or.inr ?_
            simp only [keys, List.map_cons, List.mem_cons]
            simp only [keys] at h'
            exact Or.inr h'

theorem sorted_mapAdd {K : Type} [LinearOrder K]
    (m : List (K × ℕ)) (k : K) (w : ℕ) (hs : OMapSorted m) :
    OMapSorted (mapAdd m k w) := by
  induction m with
  | nil => simp [mapAdd, OMapSorted]
  | cons q rest ih =>
    obtain ⟨k', v⟩ := q
    rw [OMapSorted, List.pairwise_cons] at hs
    obtain ⟨hlt, hrest⟩ := hs
    simp only [mapAdd]
    by_cases h1 : k < k'
    · rw [if_pos h1]
      rw [OMapSorted, List.pairwise_cons]
      refine ⟨?_, ?_⟩
      · intro p hp
        rw [List.mem_cons] at hp
        rcases hp with h | h
        · subst h; exact h1
        · exact lt_trans h1 (hlt p h)
      · rw [OMapSorted] at *; exact List.Pairwise.cons hlt hrest
    · rw [if_neg h1]
      by_cases h2 : k = k'
      · rw [if_pos h2]
        rw [OMapSorted, List.pairwise_cons]
        exact ⟨hlt, hrest⟩
      · rw [if_neg h2]
        rw [OMapSorted, List.pairwise_cons]
        refine ⟨?_, ih hrest⟩
        intro p hp
        rcases mapAdd_key_mem rest k w p hp with h | h
        · rw [h]; exact lt_of_le_of_ne (not_lt.mp h1) (Ne.symm h2)
        · simp only [keys, List.mem_map] at h
          obtain ⟨q, hq, hq1⟩ := h
          rw [← hq1]; exact hlt q hq

theorem mfind_mapAdd {K : Type} [LinearOrder K]
    (m : List (K × ℕ)) (k : K) (w : ℕ) (hs : OMapSorted m) (b : K) :
    mfind (mapAdd m k w) b =
      if b = k then some (wfind m k + w) else mfind m b := by
  induction m with
  | nil =>
    simp only [mapAdd, mfind, wfind]
    by_cases h : b = k <;> simp [h]
  | cons q rest ih =>
    obtain ⟨k', v⟩ := q
    rw [OMapSorted, List.pairwise_cons] at hs
    obtain ⟨hlt, hrest⟩ := hs
    simp only [mapAdd]
    by_cases h1 : k < k'
    · rw [if_pos h1]
      have hk : mfind ((k', v) :: rest) k = none := by
        apply mfind_eq_none_of_forall_lt
        intro p hp
        rw [List.mem_cons] at hp
        rcases hp with h | h
        · subst h; exact h1
        · exact lt_trans h1 (hlt p h)
      by_cases h : b = k
      · subst h
        have hw : wfind ((k', v) :: rest) b = 0 := by rw [wfind, hk]; rfl
        simp [mfind, hw, hk]
      · simp [mfind, h]
    · rw [if_neg h1]
      by_cases h2 : k = k'
      · subst h2
        rw [if_pos rfl]
        have hw : wfind ((k, v) :: rest) k = v := by simp [wfind, mfind]
        by_cases h : b = k
        · subst h; simp [mfind, hw]
        · simp [mfind, h]
      · rw [if_neg h2]
        by_cases hb' : b = k'
        · subst hb'
          have hbk : b ≠ k := fun he => h2 (he ▸ rfl)
          simp [mfind, hbk]
        · have hwk : wfind ((k', v) :: rest) k = wfind rest k := by
            simp [wfind, mfind, h2]
          simp [mfind, hb', ih hrest, hwk]

theorem mapAdd_ne_nil {K : Type} [LinearOrder K]
    (m : List (K × ℕ)) (k : K) (w : ℕ) : mapAdd m k w ≠ [] := by
  cases m with
  | nil => simp [mapAdd]
  | cons q rest =>
    obtain ⟨k', v⟩ := q
    simp only [mapAdd]
    by_cases h1 : k < k'
    · simp [h1]
    · by_cases h2 : k = k' <;> simp [h1, h2]

theorem mem_of_mfind_eq_some {K V : Type} [DecidableEq K]
    {m : List (K × V)} {k : K} {v : V} (h : mfind m k = some v) : (k, v) ∈ m := by
  induction m with
  | nil => simp [mfind] at h
  | cons q rest ih =>
    obtain ⟨k', v'⟩ := q
    simp only [mfind] at h
    by_cases hk : k = k'
    · rw [if_pos hk] at h
      subst hk
      injection h with h; subst h
      exact List.mem_cons_self _ _
    · rw [if_neg hk] at h
      exact List.mem_cons_of_mem _ (ih h)

theorem mfind_eq_some_of_mem {K V : Type} [LinearOrder K]
    {m : List (K × V)} (hs : OMapSorted m) {k : K} {v : V}
    (h : (k, v) ∈ m) : mfind m k = some v := by
  induction m with
  | nil => simp at h
  | cons q rest ih =>
    obtain ⟨k', v'⟩ := q
    rw [OMapSorted, List.pairwise_cons] at hs
    obtain ⟨hlt, hrest⟩ := hs
    rw [List.mem_cons] at h
    rcases h with h | h
    · injection h with h1 h2; subst h1; subst h2
      simp [mfind]
    · have hne : k ≠ k' := by
        have := hlt _ h
        exact fun he => absurd (he ▸ this) (lt_irrefl k)
      simp only [mfind, if_neg hne]
      exact ih hrest h

/-! ## Lemmas about `maxElemSecond` -/

theorem foldl_pick_mem {K : Type} (xs : List (K × ℕ)) (x : K × ℕ) :
    xs.foldl (fun b y => if b.2 < y.2 then y else b) x = x ∨
      xs.foldl (fun b y => if b.2 < y.2 then y else b) x ∈ xs := by
  induction xs generalizing x with
  | nil => exact Or.inl rfl
  | cons y ys ih =>
    simp only [List.foldl_cons]
    rcases ih (if x.2 < y.2 then y else x) with h | h
    · rw [h]
      by_cases hxy : x.2 < y.2
      · rw [if_pos hxy]; exact Or.inr (List.mem_cons_self _ _)
      · rw [if_neg hxy]; exact Or.inl rfl
    · exact Or.inr (List.mem_cons_of_mem _ h)

theorem foldl_pick_ge {K : Type} (xs : List (K × ℕ)) (x : K × ℕ) :
    x.2 ≤ (xs.foldl (fun b y => if b.2 < y.2 then y else b) x).2 ∧
      ∀ y ∈ xs, y.2 ≤ (xs.foldl (fun b y => if b.2 < y.2 then y else b) x).2 := by
  induction xs generalizing x with
  | nil => exact ⟨le_refl _, by simp⟩
  | cons y ys ih =>
    simp only [List.foldl_cons]
    obtain ⟨h1, h2⟩ := ih (if x.2 < y.2 then y else x)
    constructor
    · refine le_trans ?_ h1
      by_cases hxy : x.2 < y.2
      · rw [if_pos hxy]; exact le_of_lt hxy
      · rw [if_neg hxy]
    · intro z hz
      rw [List.mem_cons] at hz
      rcases hz with h | h
      · subst h
        refine le_trans ?_ h1
        by_cases hxy : x.2 < z.2
        · rw [if_pos hxy]
        · rw [if_neg hxy]; exact not_lt.mp hxy
      · exact h2 z h

theorem maxElemSecond_mem {K : Type} {l : List (K × ℕ)} {p : K × ℕ}
    (h : maxElemSecond l = some p) : p ∈ l := by
  cases l with
  | nil => simp [maxElemSecond] at h
  | cons x xs =>
    simp only [maxElemSecond] at h
    injection h with h
    rcases foldl_pick_mem xs x with h' | h'
    · rw [← h, h']; exact List.mem_cons_self _ _
    · rw [← h]; exact List.mem_cons_of_mem _ h'

theorem maxElemSecond_ge {K : Type} {l : List (K × ℕ)} {p : K × ℕ}
    (h : maxElemSecond l = some p) : ∀ q ∈ l, q.2 ≤ p.2 := by
  cases l with
  | nil => simp [maxElemSecond] at h
  | cons x xs =>
    simp only [maxElemSecond] at h
    injection h with h
    intro q hq
    obtain ⟨h1, h2⟩ := foldl_pick_ge xs x
    rw [List.mem_cons] at hq
    rcases hq with h' | h'
    · subst h'; rw [← h]; exact h1
    · rw [← h]; exact h2 q h'

theorem foldl_pick_first {K : Type} [LinearOrder K]
    (xs : List (K × ℕ)) (x : K × ℕ)
    (hs : List.Pairwise (fun a b : K × ℕ => a.1 < b.1) (x :: xs)) :
    ∀ q ∈ x :: xs,
      q.2 = (xs.foldl (fun b y => if b.2 < y.2 then y else b) x).2 →
      (xs.foldl (fun b y => if b.2 < y.2 then y else b) x).1 ≤ q.1 := by
  induction xs generalizing x with
  | nil =>
    intro q hq _
    rw [List.mem_cons] at hq
    rcases hq with h | h
    · subst h; exact le_refl _
    · simp at h
  | cons y ys ih =>
    rw [List.pairwise_cons] at hs
    obtain ⟨hx, hs'⟩ := hs
    have hys := (List.pairwise_cons.mp hs').2
    intro q hq hmax
    rw [List.mem_cons, List.mem_cons] at hq
    by_cases hxy : x.2 < y.2
    · simp only [List.foldl_cons, if_pos hxy] at hmax ⊢
      rcases hq with h | h | h
      · -- q = x, but y beat x in the first comparison: x is not maximal
        rw [h] at hmax
        have h1 : y.2 ≤ (ys.foldl (fun b z => if b.2 < z.2 then z else b) y).2 :=
          (foldl_pick_ge ys y).1
        rw [← hmax] at h1
        exact absurd (lt_of_lt_of_le hxy h1) (lt_irrefl _)
      · rw [h] at hmax ⊢; exact ih y hs' y (List.mem_cons_self _ _) hmax
      · exact ih y hs' q (List.mem_cons_of_mem _ h) hmax
    · simp only [List.foldl_cons, if_neg hxy] at hmax ⊢
      have hsorted2 : List.Pairwise (fun a b : K × ℕ => a.1 < b.1) (x :: ys) := by
        refine List.pairwise_cons.mpr ⟨?_, hys⟩
        intro z hz; exact hx z (List.mem_cons_of_mem _ hz)
      rcases hq with h | h | h
      · rw [h] at hmax ⊢; exact ih x hsorted2 x (List.mem_cons_self _ _) hmax
      · -- q = y; if y is maximal then so is x, and x comes first
        rw [h] at hmax ⊢
        have h1 : y.2 ≤ x.2 := not_lt.mp hxy
        have h2 : x.2 ≤ (ys.foldl (fun b z => if b.2 < z.2 then z else b) x).2 :=
          (foldl_pick_ge ys x).1
        have h3 : (ys.foldl (fun b z => if b.2 < z.2 then z else b) x).2 ≤ x.2 := by
          rw [← hmax]; exact h1
        have hx2 : x.2 = (ys.foldl (fun b z => if b.2 < z.2 then z else b) x).2 :=
          le_antisymm h2 h3
        have hrx := ih x hsorted2 x (List.mem_cons_self _ _) hx2
        exact le_trans hrx (le_of_lt (hx y (List.mem_cons_self _ _)))
      · exact ih x hsorted2 q (List.mem_cons_of_mem _ h) hmax

theorem maxElemSecond_first {K : Type} [LinearOrder K]
    {l : List (K × ℕ)} (hs : OMapSorted l) {p : K × ℕ}
    (h : maxElemSecond l = some p) :
    ∀ q ∈ l, q.2 = p.2 → p.1 ≤ q.1 := by
  cases l with
  | nil => simp [maxElemSecond] at h
  | cons x xs =>
    simp only [maxElemSecond] at h
    injection h with h
    intro q hq hmax
    rw [← h]
    exact foldl_pick_first xs x hs q hq (h ▸ hmax)

/-! ## Characterization of the value→weight histogram -/

/-- Generalization of `valGain` over an arbitrary list of parse indices
and an arbitrary initial table, used for induction. -/
def valGainAux (pv : List (ℕ × ℤ)) (l : List ℕ) (vg : List (ℤ × ℕ)) :
    List (ℤ × ℕ) :=
  l.foldl
    (fun vg i =>
      let val := dfind pv i
      mapAdd (mapAdd vg val 2) (val - 1) 1)
    vg

theorem valGain_eq_aux (pv : List (ℕ × ℤ)) (n : ℕ) :
    valGain pv n = valGainAux pv (List.range n) [] := rfl

theorem sorted_valGainAux (pv : List (ℕ × ℤ)) (l : List ℕ) (vg : List (ℤ × ℕ))
    (hs : OMapSorted vg) : OMapSorted (valGainAux pv l vg) := by
  induction l generalizing vg with
  | nil => exact hs
  | cons i l ih =>
    exact ih _ (sorted_mapAdd _ _ _ (sorted_mapAdd _ _ _ hs))

theorem sorted_valGain (pv : List (ℕ × ℤ)) (n : ℕ) : OMapSorted (valGain pv n) := by
  rw [valGain_eq_aux]
  exact sorted_valGainAux pv _ [] (by simp [OMapSorted])

theorem valGainAux_ne_nil (pv : List (ℕ × ℤ)) (l : List ℕ) (vg : List (ℤ × ℕ))
    (h : l ≠ [] ∨ vg ≠ []) : valGainAux pv l vg ≠ [] := by
  induction l generalizing vg with
  | nil =>
    rcases h with h | h
    · exact absurd rfl h
    · exact h
  | cons i l ih =>
    exact ih _ (Or.inr (mapAdd_ne_nil _ _ _))

theorem wfind_valGainAux (pv : List (ℕ × ℤ)) (l : List ℕ) (vg : List (ℤ × ℕ))
    (hs : OMapSorted vg) (b : ℤ) :
    wfind (valGainAux pv l vg) b =
      wfind vg b + 2 * (l.filter (fun i => dfind pv i = b)).length
        + (l.filter (fun i => dfind pv i = b + 1)).length := by
  induction l generalizing vg with
  | nil => simp [valGainAux]
  | cons i l ih =>
    have hs1 : OMapSorted (mapAdd vg (dfind pv i) 2) := sorted_mapAdd _ _ _ hs
    have hstep : valGainAux pv (i :: l) vg =
        valGainAux pv l (mapAdd (mapAdd vg (dfind pv i) 2) (dfind pv i - 1) 1) := rfl
    rw [hstep, ih _ (sorted_mapAdd _ _ _ hs1)]
    have h1 : wfind (mapAdd vg (dfind pv i) 2) b =
        wfind vg b + (if dfind pv i = b then 2 else 0) := by
      rw [wfind, mfind_mapAdd _ _ _ hs]
      by_cases h : dfind pv i = b
      · rw [if_pos h.symm, if_pos h, h]; rfl
      · rw [if_neg (fun he => h he.symm), if_neg h]; rfl
    have h2 : wfind (mapAdd (mapAdd vg (dfind pv i) 2) (dfind pv i - 1) 1) b =
        wfind (mapAdd vg (dfind pv i) 2) b + (if dfind pv i = b + 1 then 1 else 0) := by
      rw [wfind, mfind_mapAdd _ _ _ hs1]
      by_cases h : dfind pv i = b + 1
      · have hb : b = dfind pv i - 1 := by omega
        rw [if_pos hb, if_pos h, hb]; rfl
      · have hb : ¬ b = dfind pv i - 1 := by omega
        rw [if_neg hb, if_neg h]; rfl
    rw [h2, h1]
    by_cases e1 : dfind pv i = b <;> by_cases e2 : dfind pv i = b + 1 <;>
      simp [List.filter_cons, e1, e2] <;> omega

theorem wfind_valGain (pv : List (ℕ × ℤ)) (n : ℕ) (b : ℤ) :
    wfind (valGain pv n) b =
      2 * ((List.range n).filter (fun i => dfind pv i = b)).length
        + ((List.range n).filter (fun i => dfind pv i = b + 1)).length := by
  rw [valGain_eq_aux, wfind_valGainAux pv _ [] (by simp [OMapSorted])]
  simp [wfind, mfind]

theorem maxElemSecond_valGain (pv : List (ℕ × ℤ)) (n : ℕ) (hn : 1 ≤ n) :
    ∃ p, maxElemSecond (valGain pv n) = some p ∧ highestGainVal pv n = p.1 := by
  have hne : valGain pv n ≠ [] := by
    rw [valGain_eq_aux]
    apply valGainAux_ne_nil
    left
    simp [List.range_eq_nil]
    omega
  cases hvg : valGain pv n with
  | nil => exact absurd hvg hne
  | cons x xs =>
    refine ⟨_, rfl, ?_⟩
    simp only [highestGainVal, hvg, maxElemSecond]

/-- The three facts about the selected mode: it is stored in the table,
its weight is maximal, and among tied buckets it has the smallest value. -/
theorem mode_facts (pv : List (ℕ × ℤ)) (n : ℕ) (hn : 1 ≤ n) :
    mfind (valGain pv n) (highestGainVal pv n) =
        some (wfind (valGain pv n) (highestGainVal pv n)) ∧
    (∀ b, wfind (valGain pv n) b ≤ wfind (valGain pv n) (highestGainVal pv n)) ∧
    (∀ b w, mfind (valGain pv n) b = some w →
        w = wfind (valGain pv n) (highestGainVal pv n) → highestGainVal pv n ≤ b) := by
  obtain ⟨p, hmax, hval⟩ := maxElemSecond_valGain pv n hn
  have hsorted := sorted_valGain pv n
  have hpmem := maxElemSecond_mem hmax
  have hpfind : mfind (valGain pv n) p.1 = some p.2 :=
    mfind_eq_some_of_mem hsorted hpmem
  have hwmode : wfind (valGain pv n) (highestGainVal pv n) = p.2 := by
    rw [hval, wfind, hpfind]; rfl
  refine ⟨?_, ?_, ?_⟩
  · rw [hwmode, hval]; exact hpfind
  · intro b
    cases hb : mfind (valGain pv n) b with
    | none => rw [wfind, hb]; exact Nat.zero_le _
    | some w =>
      rw [wfind, hb, hwmode]
      exact maxElemSecond_ge hmax (b, w) (mem_of_mfind_eq_some hb)
  · intro b w hfind heq
    rw [hval]
    exact maxElemSecond_first hsorted hmax (b, w) (mem_of_mfind_eq_some hfind)
      (by rw [heq, hwmode])

/-! ## Lookup in the export list -/

theorem mfind_relExports_aux (f : ℕ → ℤ) (l : List ℕ) (j : ℕ) :
    mfind (l.filterMap (fun i => if f i ≠ 0 then some (i, f i) else none)) j =
      if j ∈ l then (if f j = 0 then none else some (f j)) else none := by
  induction l with
  | nil => simp [mfind]
  | cons i l ih =>
    by_cases hi : f i = 0
    · rw [List.filterMap_cons_none (by simp [hi]), ih]
      by_cases hj : j = i
      · subst hj
        simp [hi]
      · simp [List.mem_cons, hj]
    · rw [@List.filterMap_cons_some ℕ (ℕ × ℤ) _ _ _ (i, f i) (by simp [hi])]
      by_cases hj : j = i
      · subst hj
        simp [mfind, hi]
      · simp only [mfind, if_neg hj]
        rw [ih]
        simp [List.mem_cons, hj]

theorem mfind_featureExports_rel (pv : List (ℕ × ℤ)) (n : ℕ) (j : ℕ) (hj : j < n) :
    mfind (featureExports false pv n) j =
      if dfind pv j = highestGainVal pv n then none
      else some (dfind pv j - highestGainVal pv n) := by
  have h := mfind_relExports_aux (fun i => dfind pv i - highestGainVal pv n)
    (List.range n) j
  simp only [featureExports, Bool.false_eq_true, if_false]
  rw [h]
  simp only [List.mem_range, hj, if_pos]
  by_cases he : dfind pv j = highestGainVal pv n
  · rw [if_pos he, if_pos (by omega : dfind pv j - highestGainVal pv n = 0)]
  · rw [if_neg he, if_neg (by omega : ¬ dfind pv j - highestGainVal pv n = 0)]

/-! ## Claim C1: the relative-count normalizer -/

/-- **C1.** In relative-count mode (absolute counts disabled), for every
sentence and every feature, the exported value for candidate `j` equals
that candidate's raw count (missing = 0) minus the mode, where the mode
is a bucket of highest total weight in the histogram in which each
candidate's raw value `v` adds weight 2 to bucket `v` and weight 1 to
bucket `v - 1`; results equal to zero are omitted from that candidate's
output.  In particular, for raw counts `[0, 0, 1]` over 3 candidates
(the feature occurs once, on candidate index 2), only the third
candidate exports the feature, with value 1. -/
theorem C1_relative_count_export (pv : List (ℕ × ℤ)) (n : ℕ) (hn : 1 ≤ n) :
    (∀ b : ℤ, wfind (valGain pv n) b =
        2 * ((List.range n).filter (fun i => dfind pv i = b)).length
          + ((List.range n).filter (fun i => dfind pv i = b + 1)).length) ∧
    (∀ b : ℤ, wfind (valGain pv n) b ≤ wfind (valGain pv n) (highestGainVal pv n)) ∧
    mfind (valGain pv n) (highestGainVal pv n) =
      some (wfind (valGain pv n) (highestGainVal pv n)) ∧
    (∀ j < n, mfind (featureExports false pv n) j =
        if dfind pv j = highestGainVal pv n then none
        else some (dfind pv j - highestGainVal pv n)) ∧
    featureExports false [(2, 1)] 3 = [(2, 1)] := by
  obtain ⟨hmem, hmax, hleast⟩ := mode_facts pv n hn
  exact ⟨wfind_valGain pv n, hmax, hmem,
    fun j hj => mfind_featureExports_rel pv n j hj, by decide⟩

/-- Witness for C1: instantiated at raw counts `[0, 0, 1]` over 3
candidates; candidate 2 exports value 1. -/
theorem C1_relative_count_export_witness :
    1 ≤ 3 ∧ mfind (featureExports false [(2, 1)] 3) 2 = some 1 := by
  have h := C1_relative_count_export [(2, 1)] 3 (by decide)
  refine ⟨by decide, ?_⟩
  rw [h.2.2.2.1 2 (by decide)]
  decide

/-! ## Claim C4: the tie-break of the relative-count mode -/

/-- Modelled from the spec: the order in which bucket values are first
inserted into the value→weight table during the per-sentence scan over
candidates (for each candidate in order, first its value `v`, then
`v - 1`). -/
def valGainInsertionOrder (pv : List (ℕ × ℤ)) (n : ℕ) : List ℤ :=
  (List.range n).foldl
    (fun acc i =>
      let val := dfind pv i
      let acc1 := if val ∈ acc then acc else acc ++ [val]
      if (val - 1) ∈ acc1 then acc1 else acc1 ++ [val - 1])
    []

/-- The tie-break rule exactly as claim C4 states it: among the buckets
of maximal total weight, the one whose value was inserted into the
value→weight table first. -/
def claimHighestGainVal (pv : List (ℕ × ℤ)) (n : ℕ) : ℤ :=
  let vg := valGain pv n
  let maxw := (vg.map Prod.snd).foldr max 0
  ((valGainInsertionOrder pv n).filter (fun b => wfind vg b = maxw)).headD 0

/-- **C4 is false as stated.**  For raw counts `[3, 3, 0, 0]` over 4
candidates, buckets 3 and 0 tie at the maximal weight 4; bucket 3 was
inserted into the value→weight table first (during candidate 0), but
the code exports mode 0: the table is a `std::map` keyed by the value,
iterated in ascending numeric order, not insertion order. -/
theorem C4_counterexample :
    wfind (valGain [(0, 3), (1, 3)] 4) 3 = 4 ∧
    wfind (valGain [(0, 3), (1, 3)] 4) 0 = 4 ∧
    (∀ p ∈ valGain [(0, 3), (1, 3)] 4, p.2 ≤ 4) ∧
    valGainInsertionOrder [(0, 3), (1, 3)] 4 = [3, 2, 0, -1] ∧
    claimHighestGainVal [(0, 3), (1, 3)] 4 = 3 ∧
    highestGainVal [(0, 3), (1, 3)] 4 = 0 := by decide

/-- **C4 (amended).** In relative-count mode, when two buckets of the
per-feature value→weight histogram tie for the highest total weight,
the exported mode is the numerically smallest of the tied bucket
values (the value→weight table is an ordered `std::map` iterated in
ascending value order), not the value inserted first. -/
theorem C4_tiebreak_smallest (pv : List (ℕ × ℤ)) (n : ℕ) (hn : 1 ≤ n) :
    (∀ b, wfind (valGain pv n) b ≤ wfind (valGain pv n) (highestGainVal pv n)) ∧
    (∀ b w, mfind (valGain pv n) b = some w →
        w = wfind (valGain pv n) (highestGainVal pv n) → highestGainVal pv n ≤ b) := by
  obtain ⟨hmem, hmax, hleast⟩ := mode_facts pv n hn
  exact ⟨hmax, hleast⟩

/-- Witness for the amended C4, instantiated at the tied input
`[3, 3, 0, 0]`: the exported mode is ≤ 3 (it is bucket 0). -/
theorem C4_tiebreak_smallest_witness :
    1 ≤ 4 ∧ highestGainVal [(0, 3), (1, 3)] 4 ≤ 3 := by
  have h := C4_tiebreak_smallest [(0, 3), (1, 3)] 4 (by decide)
  exact ⟨by decide, h.2 3 4 (by decide) (by decide)⟩

/-! ## Claim C9: the per-candidate output format of `write_features` -/

/-- One token printed by `FeatureClassPtrs::write_features` for one
candidate: a bare feature id (printed when the value is exactly 1), an
`id=value` pair (printed for any other value), or the terminating
comma. -/
inductive OutTok : Type
  | bare (id : ℕ)
  | assign (id : ℕ) (v : ℤ)
  | comma
  deriving DecidableEq

/-- The token sequence `write_features` prints for one candidate's
feature map `i_v`: for each `(id, value)` entry in order, `id` when
`value == 1` and `id=value` otherwise, followed by a `,`. -/
def writeCandidate (i_v : List (ℕ × ℤ)) : List OutTok :=
  (i_v.map (fun p => if p.2 = 1 then OutTok.bare p.1 else OutTok.assign p.1 p.2))
    ++ [OutTok.comma]

/-- **C9.** In the per-sentence feature-counts output, every candidate's
feature list is terminated by a comma; each entry with value exactly 1
is written as the bare id and every other value as `id=value`; and the
per-candidate maps produced by the normalizer contain no zero-valued
entries, so zero values are never written. -/
theorem C9_output_format :
    (∀ (absolute : Bool) (pv : List (ℕ × ℤ)) (n : ℕ) (e : ℕ × ℤ),
        e ∈ featureExports absolute pv n → e.2 ≠ 0) ∧
    (∀ i_v : List (ℕ × ℤ),
        (writeCandidate i_v).length = i_v.length + 1 ∧
        (writeCandidate i_v)[i_v.length]? = some OutTok.comma) ∧
    (∀ (i_v : List (ℕ × ℤ)) (k : ℕ), k < i_v.length →
        (writeCandidate i_v)[k]? =
          (i_v[k]?).map
            (fun p => if p.2 = 1 then OutTok.bare p.1 else OutTok.assign p.1 p.2)) := by
  refine ⟨?_, ?_, ?_⟩
  · intro absolute pv n e he
    cases absolute with
    | true =>
      simp only [featureExports, if_pos] at he
      obtain ⟨i, _, hi⟩ := List.mem_filterMap.mp he
      by_cases h : dfind pv i ≠ 0
      · rw [if_pos h] at hi
        injection hi with hi
        rw [← hi]
        exact h
      · rw [if_neg h] at hi
        exact absurd hi (by simp)
    | false =>
      simp only [featureExports, Bool.false_eq_true, if_false] at he
      obtain ⟨i, _, hi⟩ := List.mem_filterMap.mp he
      by_cases h : dfind pv i - highestGainVal pv n ≠ 0
      · rw [if_pos h] at hi
        injection hi with hi
        rw [← hi]
        exact h
      · rw [if_neg h] at hi
        exact absurd hi (by simp)
  · intro i_v
    constructor
    · simp [writeCandidate]
    · rw [writeCandidate, List.getElem?_append]
      simp
  · intro i_v k hk
    rw [writeCandidate, List.getElem?_append]
    rw [if_pos (by simpa using hk)]
    exact List.getElem?_map _ _ _

/-- Witness for C9: a concrete two-entry candidate map; the entry with
value 1 prints bare, the map `[(0, 2)]` from the normalizer has no zero
entry. -/
theorem C9_output_format_witness :
    (2 : ℤ) ≠ 0 ∧
    (writeCandidate [(7, 1), (9, 2)])[0]? = some (OutTok.bare 7) := by
  have h := C9_output_format
  refine ⟨h.1 true [(0, 2)] 1 (0, 2) (by decide), ?_⟩
  rw [h.2.2 [(7, 1), (9, 2)] 0 (by decide)]
  decide

/-! ## Discovery (`FeatureClass::extract_features_helper`), claims C2 and C7

The helper is a template over the feature class; its interaction with
`parse_featurecount` is modelled by a parameter
`pfc : ℕ → List (F × ℤ)` giving, for each parse index, the sequence of
accumulations `feat_count[f] += v` that `parse_featurecount` performs on
that parse (a bare `++feat_count[f]` is `(f, 1)`). -/

/-- `m[k] += v` on a `std::map` with signed values (the inner `C_V`
map of `FeatureParseVal`), kept in ascending key order. -/
def mapAddInt {K : Type} [LinearOrder K] : List (K × ℤ) → K → ℤ → List (K × ℤ)
  | [], k, v => [(k, v)]
  | (k', v') :: rest, k, v =>
    if k < k' then (k, v) :: (k', v') :: rest
    else if k = k' then (k', v' + v) :: rest
    else (k', v') :: mapAddInt rest k v

/-- `fpv.f_p_v[f][i] += d` on the nested map `F_C_V`
(`std::map<Feature, std::map<size_type, Float>>`). -/
def fpvAdd {F : Type} [LinearOrder F] :
    List (F × List (ℕ × ℤ)) → F → ℕ → ℤ → List (F × List (ℕ × ℤ))
  | [], f, i, d => [(f, mapAddInt [] i d)]
  | (f', m) :: rest, f, i, d =>
    if f < f' then (f, mapAddInt [] i d) :: (f', m) :: rest
    else if f = f' then (f', mapAddInt m i d) :: rest
    else (f', m) :: fpvAdd rest f i d

/-- The `FeatureParseVal` structure after the loop
`for i < nparses: fpv.parse = i; fc.parse_featurecount(fc, s.parses[i], fpv)`. -/
def buildFPV {F : Type} [LinearOrder F] (pfc : ℕ → List (F × ℤ)) (n : ℕ) :
    List (F × List (ℕ × ℤ)) :=
  (List.range n).foldl
    (fun fpv i => (pfc i).foldl (fun fpv fd => fpvAdd fpv fd.1 i fd.2) fpv)
    []

/-- The pseudo-constant test of `extract_features_helper`: the feature
has an entry on every one of the `n` parses, and all entries are equal
to the first entry's value. -/
def pseudoconstant (n : ℕ) (p_v : List (ℕ × ℤ)) : Bool :=
  p_v.length = n && p_v.all (fun q => q.2 = (p_v.headD (0, 0)).2)

/-- The correctness filter of `extract_features_helper`:
`(collect_correct && p_v.find(0) != p_v.end()) || (collect_incorrect &&
(p_v.find(0) == p_v.end() || p_v.size() > 1))`. -/
def collectCondition (cc ci : Bool) (p_v : List (ℕ × ℤ)) : Bool :=
  (cc && (mfind p_v 0).isSome) || (ci && ((mfind p_v 0).isNone || 1 < p_v.length))

/-- `++fc.feature_id[f]` on the discovery tally (an `ext::hash_map`,
modelled as an association list appending new keys at the end). -/
def hmBump {F : Type} [DecidableEq F] : List (F × ℕ) → F → List (F × ℕ)
  | [], f => [(f, 1)]
  | (f', c) :: rest, f =>
    if f = f' then (f', c + 1) :: rest else (f', c) :: hmBump rest f

/-- `FeatureClass::extract_features_helper`: ignore sentences with at
most one parse; otherwise build `fpv` over all parses and bump the
discovery tally of every observed feature that is not pseudo-constant
and passes the correctness filter. -/
def extract_features_helper {F : Type} [LinearOrder F]
    (cc ci : Bool) (pfc : ℕ → List (F × ℤ)) (n : ℕ)
    (feature_id : List (F × ℕ)) : List (F × ℕ) :=
  if n ≤ 1 then feature_id
  else
    (buildFPV pfc n).foldl
      (fun t fp =>
        if pseudoconstant n fp.2 = false then
          if collectCondition cc ci fp.2 = true then hmBump t fp.1 else t
        else t)
      feature_id

/-! ### Structural lemmas about the discovery fold -/

theorem mfind_eq_none_iff_not_mem_keys {K V : Type} [DecidableEq K]
    (m : List (K × V)) (k : K) : mfind m k = none ↔ k ∉ keys m := by
  induction m with
  | nil => simp [mfind, keys]
  | cons q rest ih =>
    obtain ⟨k', v⟩ := q
    simp only [mfind, keys, List.map_cons, List.mem_cons]
    by_cases h : k = k'
    · simp [h]
    · simp only [if_neg h]
      rw [ih]
      simp [keys, h]

theorem fpvAdd_key_mem {F : Type} [LinearOrder F]
    (m : List (F × List (ℕ × ℤ))) (f : F) (i : ℕ) (d : ℤ) :
    ∀ p ∈ fpvAdd m f i d, p.1 = f ∨ p.1 ∈ keys m := by
  induction m with
  | nil =>
    intro p hp
    simp only [fpvAdd, List.mem_singleton] at hp
    subst hp; exact Or.inl rfl
  | cons q rest ih =>
    obtain ⟨f', mm⟩ := q
    intro p hp
    simp only [fpvAdd] at hp
    by_cases h1 : f < f'
    · rw [if_pos h1] at hp
      rw [List.mem_cons, List.mem_cons] at hp
      rcases hp with h | h | h
      · subst h; exact Or.inl rfl
      · subst h; exact Or.inr (by simp [keys])
      · refine Or.inr ?_
        simp only [keys, List.map_cons, List.mem_cons]
        exact Or.inr (List.mem_map_of_mem _ h)
    · rw [if_neg h1] at hp
      by_cases h2 : f = f'
      · rw [if_pos h2] at hp
        rw [List.mem_cons] at hp
        rcases hp with h | h
        · subst h; exact Or.inr (by simp [keys])
        · refine Or.inr ?_
          simp only [keys, List.map_cons, List.mem_cons]
          exact Or.inr (List.mem_map_of_mem _ h)
      · rw [if_neg h2] at hp
        rw [List.mem_cons] at hp
        rcases hp with h | h
        · subst h; exact Or.inr (by simp [keys])
        · rcases ih p h with h' | h'
          · exact Or.inl h'
          · refine Or.inr ?_
            simp only [keys, List.map_cons, List.mem_cons]
            simp only [keys] at h'
            exact Or.inr h'

theorem sorted_fpvAdd {F : Type} [LinearOrder F]
    (m : List (F × List (ℕ × ℤ))) (f : F) (i : ℕ) (d : ℤ)
    (hs : OMapSorted m) : OMapSorted (fpvAdd m f i d) := by
  induction m with
  | nil => simp [fpvAdd, OMapSorted]
  | cons q rest ih =>
    obtain ⟨f', mm⟩ := q
    rw [OMapSorted, List.pairwise_cons] at hs
    obtain ⟨hlt, hrest⟩ := hs
    simp only [fpvAdd]
    by_cases h1 : f < f'
    · rw [if_pos h1]
      rw [OMapSorted, List.pairwise_cons]
      refine ⟨?_, ?_⟩
      · intro p hp
        rw [List.mem_cons] at hp
        rcases hp with h | h
        · subst h; exact h1
        · exact lt_trans h1 (hlt p h)
      · exact List.Pairwise.cons hlt hrest
    · rw [if_neg h1]
      by_cases h2 : f = f'
      · rw [if_pos h2]
        rw [OMapSorted, List.pairwise_cons]
        exact ⟨hlt, hrest⟩
      · rw [if_neg h2]
        rw [OMapSorted, List.pairwise_cons]
        refine ⟨?_, ih hrest⟩
        intro p hp
        rcases fpvAdd_key_mem rest f i d p hp with h | h
        · rw [h]; exact lt_of_le_of_ne (not_lt.mp h1) (Ne.symm h2)
        · simp only [keys, List.mem_map] at h
          obtain ⟨q, hq, hq1⟩ := h
          rw [← hq1]; exact hlt q hq

theorem sorted_buildFPV {F : Type} [LinearOrder F]
    (pfc : ℕ → List (F × ℤ)) (n : ℕ) : OMapSorted (buildFPV pfc n) := by
  rw [buildFPV]
  have h : ∀ (l : List ℕ) (fpv : List (F × List (ℕ × ℤ))), OMapSorted fpv →
      OMapSorted (l.foldl
        (fun fpv i => (pfc i).foldl (fun fpv fd => fpvAdd fpv fd.1 i fd.2) fpv) fpv) := by
    intro l
    induction l with
    | nil => intro fpv h; exact h
    | cons i l ih =>
      intro fpv h
      apply ih
      have h2 : ∀ (inner : List (F × ℤ)) (fpv : List (F × List (ℕ × ℤ))),
          OMapSorted fpv →
          OMapSorted (inner.foldl (fun fpv fd => fpvAdd fpv fd.1 i fd.2) fpv) := by
        intro inner
        induction inner with
        | nil => intro fpv h; exact h
        | cons fd inner ih2 =>
          intro fpv h
          exact ih2 _ (sorted_fpvAdd _ _ _ _ h)
      exact h2 _ _ h
  exact h _ [] (by simp [OMapSorted])

theorem mfind_hmBump {F : Type} [DecidableEq F]
    (t : List (F × ℕ)) (f g : F) :
    mfind (hmBump t f) g =
      if g = f then some ((mfind t f).getD 0 + 1) else mfind t g := by
  induction t with
  | nil =>
    by_cases h : g = f
    · subst h; simp [hmBump, mfind]
    · simp [hmBump, mfind, h]
  | cons q rest ih =>
    obtain ⟨f', c⟩ := q
    by_cases h1 : f = f'
    · subst h1
      simp only [hmBump, if_pos rfl]
      by_cases h : g = f
      · subst h; simp [mfind]
      · simp [mfind, h]
    · simp only [hmBump, if_neg h1]
      by_cases h : g = f
      · have hgf : ¬ g = f' := by rw [h]; exact h1
        simp only [mfind, if_neg hgf]
        rw [ih, if_pos h, h]
        simp [mfind, h1]
      · rw [if_neg h]
        by_cases h' : g = f'
        · simp [mfind, h']
        · simp only [mfind, if_neg h']
          rw [ih, if_neg h]

theorem mfind_foldl_bump {F : Type} [LinearOrder F]
    (L : List (F × List (ℕ × ℤ))) (cond : F × List (ℕ × ℤ) → Bool)
    (t : List (F × ℕ)) (hnd : (keys L).Nodup) (f : F) :
    (∀ p_v, mfind L f = some p_v →
        mfind (L.foldl (fun t fp => if cond fp then hmBump t fp.1 else t) t) f =
          if cond (f, p_v) then some ((mfind t f).getD 0 + 1) else mfind t f) ∧
    (mfind L f = none →
        mfind (L.foldl (fun t fp => if cond fp then hmBump t fp.1 else t) t) f =
          mfind t f) := by
  induction L generalizing t with
  | nil => exact ⟨fun p_v h => by simp [mfind] at h, fun _ => rfl⟩
  | cons q L ih =>
    obtain ⟨g, m⟩ := q
    simp only [keys, List.map_cons, List.nodup_cons] at hnd
    obtain ⟨hg, hnd'⟩ := hnd
    have hgnone : mfind L g = none := by
      rw [mfind_eq_none_iff_not_mem_keys]
      exact hg
    constructor
    · intro p_v hfind
      simp only [mfind] at hfind
      simp only [List.foldl_cons]
      by_cases hf : f = g
      · rw [if_pos hf] at hfind
        injection hfind with hfind
        rw [← hfind]
        rw [← hf] at hgnone
        rw [(ih _ hnd').2 hgnone, hf]
        by_cases hc : cond (g, m)
        · rw [if_pos hc, if_pos hc, mfind_hmBump]
          simp
        · rw [if_neg hc, if_neg hc]
      · rw [if_neg hf] at hfind
        have hstep : ∀ t' : List (F × ℕ),
            mfind (if cond (g, m) then hmBump t' g else t') f = mfind t' f := by
          intro t'
          by_cases hc : cond (g, m)
          · rw [if_pos hc, mfind_hmBump, if_neg hf]
          · rw [if_neg hc]
        rw [(ih _ hnd').1 p_v hfind, hstep t]
    · intro hfind
      simp only [mfind] at hfind
      by_cases hf : f = g
      · rw [if_pos hf] at hfind
        exact absurd hfind (by simp)
      · rw [if_neg hf] at hfind
        simp only [List.foldl_cons]
        rw [(ih _ hnd').2 hfind]
        by_cases hc : cond (g, m)
        · rw [if_pos hc, mfind_hmBump, if_neg hf]
        · rw [if_neg hc]

/-! ### Claim C2: the discovery filter -/

theorem mfind_isSome_iff_mem_keys {K V : Type} [DecidableEq K]
    (m : List (K × V)) (k : K) : (mfind m k).isSome = true ↔ k ∈ keys m := by
  constructor
  · intro h
    by_contra hmem
    rw [← mfind_eq_none_iff_not_mem_keys] at hmem
    rw [hmem] at h
    simp at h
  · intro h
    cases hm : mfind m k with
    | none => exact absurd ((mfind_eq_none_iff_not_mem_keys m k).mp hm) (fun hh => hh h)
    | some v => rfl

/-- The correctness filter exactly as claim C2 states it: include the
instance if "collect correct" is enabled and the instance is absent or
zero on the baseline candidate (index 0), or "collect incorrect" is
enabled and the instance is present-and-nonzero on a non-baseline
candidate or appears on multiple candidates. -/
def claimCollectCondition (cc ci : Bool) (p_v : List (ℕ × ℤ)) : Bool :=
  (cc && decide (dfind p_v 0 = 0)) ||
  (ci && (p_v.any (fun q => decide (q.1 ≠ 0) && decide (q.2 ≠ 0)) ||
          decide (1 < p_v.length)))

/-- Discovery with the correctness filter replaced by the one claim C2
words (`claimCollectCondition`); everything else is as in
`extract_features_helper`.  Comparing the two on one sentence refutes
the claim. -/
def claim_extract_features_helper {F : Type} [LinearOrder F]
    (cc ci : Bool) (pfc : ℕ → List (F × ℤ)) (n : ℕ)
    (feature_id : List (F × ℕ)) : List (F × ℕ) :=
  if n ≤ 1 then feature_id
  else
    (buildFPV pfc n).foldl
      (fun t fp =>
        if pseudoconstant n fp.2 = false then
          if claimCollectCondition cc ci fp.2 = true then hmBump t fp.1 else t
        else t)
      feature_id

/-- **C2 is false as stated.**  With collect-correct enabled (-c) and
collect-incorrect disabled, take a 2-candidate sentence whose only
feature instance occurs (with value 2) solely on the baseline
candidate 0.  The code's filter `collect_correct && p_v.find(0) !=
p_v.end()` requires *presence* on candidate 0, so the code tallies the
instance (final tally `[(0, 1)]`); the claim's filter (absent-or-zero
on candidate 0) excludes it (final tally `[]`).  The remaining
conjuncts pin down why: the accumulated feature→parse→value map is
`[(0, [(0, 2)])]`, the instance is not pseudo-constant, and the two
filters disagree on its parse→value map. -/
theorem C2_counterexample :
    extract_features_helper true false
        (fun i => if i = 0 then [((0 : ℕ), (2 : ℤ))] else []) 2 [] = [(0, 1)] ∧
    claim_extract_features_helper true false
        (fun i => if i = 0 then [((0 : ℕ), (2 : ℤ))] else []) 2 [] = [] ∧
    buildFPV (fun i => if i = 0 then [((0 : ℕ), (2 : ℤ))] else []) 2 =
      [(0, [(0, 2)])] ∧
    pseudoconstant 2 [((0 : ℕ), (2 : ℤ))] = false ∧
    claimCollectCondition true false [((0 : ℕ), (2 : ℤ))] = false ∧
    collectCondition true false [((0 : ℕ), (2 : ℤ))] = true := by decide

/-- **C2 (amended).** During discovery, for every sentence with at
least 2 candidate parses and every observed feature instance (one with
an entry `p_v` in the accumulated feature→parse→value map), the
instance's discovery tally is incremented by exactly one iff the
instance is not pseudo-constant and either (a) collect-correct is
enabled and the instance is *present* on the baseline candidate
(index 0 is among the keys of `p_v`), or (b) collect-incorrect is
enabled and the instance is absent from the baseline candidate or
present on more than one candidate; otherwise, and for every
unobserved instance, the tally entry is unchanged. -/
theorem C2_discovery_filter {F : Type} [LinearOrder F]
    (cc ci : Bool) (pfc : ℕ → List (F × ℤ)) (n : ℕ) (hn : 2 ≤ n)
    (tally : List (F × ℕ)) (f : F) :
    (∀ p_v, mfind (buildFPV pfc n) f = some p_v →
        mfind (extract_features_helper cc ci pfc n tally) f =
          (if pseudoconstant n p_v = false ∧
              ((cc = true ∧ (0 : ℕ) ∈ keys p_v) ∨
               (ci = true ∧ ((0 : ℕ) ∉ keys p_v ∨ 1 < p_v.length)))
           then some ((mfind tally f).getD 0 + 1)
           else mfind tally f)) ∧
    (mfind (buildFPV pfc n) f = none →
        mfind (extract_features_helper cc ci pfc n tally) f = mfind tally f) := by
  have hnle : ¬ n ≤ 1 := by omega
  have hnd : (keys (buildFPV pfc n)).Nodup := by
    have hs := sorted_buildFPV pfc n
    rw [OMapSorted] at hs
    exact List.pairwise_map.mpr (hs.imp fun h => ne_of_lt h)
  have hfun : (fun (t : List (F × ℕ)) (fp : F × List (ℕ × ℤ)) =>
      if pseudoconstant n fp.2 = false then
        if collectCondition cc ci fp.2 = true then hmBump t fp.1 else t
      else t) =
      (fun t fp =>
        if (!pseudoconstant n fp.2 && collectCondition cc ci fp.2) = true then
          hmBump t fp.1
        else t) := by
    funext t fp
    by_cases h1 : pseudoconstant n fp.2 = false
    · by_cases h2 : collectCondition cc ci fp.2 = true <;> simp [h1, h2]
    · have h1' : pseudoconstant n fp.2 = true := by
        cases hb : pseudoconstant n fp.2
        · exact absurd hb h1
        · rfl
      simp [h1, h1']
  have hcond : ∀ p_v : List (ℕ × ℤ),
      ((!pseudoconstant n p_v && collectCondition cc ci p_v) = true) ↔
      (pseudoconstant n p_v = false ∧
       ((cc = true ∧ (0 : ℕ) ∈ keys p_v) ∨
        (ci = true ∧ ((0 : ℕ) ∉ keys p_v ∨ 1 < p_v.length)))) := by
    intro p_v
    simp only [Bool.and_eq_true, Bool.not_eq_true', collectCondition,
      Bool.or_eq_true, decide_eq_true_eq, Option.isNone_iff_eq_none,
      mfind_eq_none_iff_not_mem_keys, mfind_isSome_iff_mem_keys]
  refine ⟨?_, ?_⟩
  · intro p_v hp
    rw [extract_features_helper, if_neg hnle, hfun]
    rw [(mfind_foldl_bump (buildFPV pfc n)
      (fun fp => !pseudoconstant n fp.2 && collectCondition cc ci fp.2)
      tally hnd f).1 p_v hp]
    by_cases h1 : pseudoconstant n p_v = false ∧
        ((cc = true ∧ (0 : ℕ) ∈ keys p_v) ∨
         (ci = true ∧ ((0 : ℕ) ∉ keys p_v ∨ 1 < p_v.length)))
    · rw [if_pos ((hcond p_v).mpr h1), if_pos h1]
    · rw [if_neg (fun hh => h1 ((hcond p_v).mp hh)), if_neg h1]
  · intro hp
    rw [extract_features_helper, if_neg hnle, hfun]
    exact (mfind_foldl_bump (buildFPV pfc n)
      (fun fp => !pseudoconstant n fp.2 && collectCondition cc ci fp.2)
      tally hnd f).2 hp

/-- Witness for the amended C2: the counterexample sentence, where the
tally entry of the observed feature is created with count 1. -/
theorem C2_discovery_filter_witness :
    2 ≤ 2 ∧
    mfind (extract_features_helper true false
        (fun i => if i = 0 then [((0 : ℕ), (2 : ℤ))] else []) 2 []) 0 = some 1 := by
  have h := C2_discovery_filter true false
    (fun i => if i = 0 then [((0 : ℕ), (2 : ℤ))] else []) 2 (by decide) [] 0
  refine ⟨by decide, ?_⟩
  rw [h.1 [(0, 2)] (by decide)]
  decide

/-! ### Claim C7: sentences with fewer than 2 parses are no-ops -/

/-- **C7.** For every sentence with fewer than 2 candidate parses,
`extract_features` leaves every template's discovery state completely
unchanged, so running discovery on such a sentence any number of times
changes nothing. -/
theorem C7_unambiguous_noop {F : Type} [LinearOrder F]
    (cc ci : Bool) (pfc : ℕ → List (F × ℤ)) (n : ℕ) (hn : n < 2)
    (feature_id : List (F × ℕ)) (k : ℕ) :
    (fun t => extract_features_helper cc ci pfc n t)^[k] feature_id = feature_id := by
  have h1 : ∀ t : List (F × ℕ), extract_features_helper cc ci pfc n t = t := by
    intro t
    rw [extract_features_helper, if_pos (by omega)]
  induction k with
  | zero => rfl
  | succ k ih => rw [Function.iterate_succ_apply, h1, ih]

/-- Witness for C7: a one-parse sentence leaves a concrete tally
unchanged under two rounds of discovery. -/
theorem C7_unambiguous_noop_witness :
    (1 < 2) ∧
    (fun t => extract_features_helper true true
        (fun _ => [((0 : ℕ), (1 : ℤ))]) 1 t)^[2] [(5, 2)] = [(5, 2)] :=
  ⟨by decide,
   C7_unambiguous_noop true true (fun _ => [((0 : ℕ), (1 : ℤ))]) 1 (by decide) [(5, 2)] 2⟩

/-! ## The registry lifecycle: prune/renumber, persist, restore
(claims C5, C6, C8)

A feature class is modelled by its identifier string and its
feature→count (during discovery) or feature→id (after renumbering)
hash map.  All templates are modelled over one instance type `F`. -/

/-- A feature class as the registry sees it. -/
structure FC (F : Type) where
  ident : String
  feature_id : List (F × ℕ)
  deriving DecidableEq

/-- `FeatureClass::prune_and_renumber_helper`: collect the features
whose count is at least `mincount` (in table iteration order), clear
the table, reinsert them numbered consecutively from `nextid`, and
return the updated `nextid`. -/
def prune_and_renumber_helper {F : Type} (fid : List (F × ℕ))
    (mincount nextid : ℕ) : List (F × ℕ) × ℕ :=
  let fs := (fid.filter (fun p => mincount ≤ p.2)).map Prod.fst
  (fs.enum.map (fun q => (q.2, nextid + q.1)), nextid + fs.length)

/-- `FeatureClass::print_feature_ids_helper`: the `(id, identifier,
instance)` lines of one template, sorted by id (`std::sort` over
`pair<Id, const Feature*>` compares the id first). -/
def print_feature_ids_helper {F : Type} (fc : FC F) : List (ℕ × String × F) :=
  ((fc.feature_id.map (fun p => (p.2, p.1))).mergeSort
      (fun a b => decide (a.1 ≤ b.1))).map (fun q => (q.1, fc.ident, q.2))

/-- One step of `FeatureClassPtrs::prune_and_renumber`: prune and
renumber one template starting from the running id counter, appending
its printed lines to the shared log stream. -/
def pruneStep {F : Type} (mincount : ℕ)
    (acc : List (FC F) × List (ℕ × String × F) × ℕ) (fc : FC F) :
    List (FC F) × List (ℕ × String × F) × ℕ :=
  let r := prune_and_renumber_helper fc.feature_id mincount acc.2.2
  (acc.1 ++ [⟨fc.ident, r.1⟩],
   acc.2.1 ++ print_feature_ids_helper ⟨fc.ident, r.1⟩,
   r.2)

/-- `FeatureClassPtrs::prune_and_renumber`: thread the id counter,
starting at 0, through all templates in registration order. -/
def prune_and_renumber {F : Type} (fcs : List (FC F)) (mincount : ℕ) :
    List (FC F) × List (ℕ × String × F) × ℕ :=
  fcs.foldl (pruneStep mincount) ([], [], 0)

/-- A fresh registry built with the same templates: same identifiers,
empty feature maps. -/
def resetFCs {F : Type} (fcs : List (FC F)) : List (FC F) :=
  fcs.map (fun fc => ⟨fc.ident, []⟩)

/-- The `St_FCp` identifier→template map of `read_feature_ids`: built
by iterating the templates in order and inserting
`fcident_fcp[identifier] = template`, so a later template with the same
identifier overwrites an earlier one.  `identIdxFrom base fcs s` is the
index (offset by `base`) of the last template in `fcs` whose identifier
is `s`. -/
def identIdxFrom {F : Type} (base : ℕ) : List (FC F) → String → Option ℕ
  | [], _ => none
  | fc :: rest, s =>
    match identIdxFrom (base + 1) rest s with
    | some k => some k
    | none => if fc.ident = s then some base else none

/-- The index of the template owning identifier `s`. -/
def identIdx {F : Type} (fcs : List (FC F)) (s : String) : Option ℕ :=
  identIdxFrom 0 fcs s

/-- `FeatureClass::read_feature_helper`: insert `(instance, id)` into
the template's map; if the instance is already present, report the
duplicate and terminate with a nonzero exit status
(`exit(EXIT_FAILURE)` is modelled by `Except.error`). -/
def read_feature_helper {F : Type} [DecidableEq F] (fid : List (F × ℕ))
    (f : F) (id : ℕ) : Except String (List (F × ℕ)) :=
  if (mfind fid f).isSome then Except.error "duplicate feature"
  else Except.ok (fid ++ [(f, id)])

/-- One line of `FeatureClassPtrs::read_feature_ids`: look the
template-identifier up in the `St_FCp` map; if no registered template
matches, report the unknown identifier and terminate; otherwise let the
owning template read the instance, and track the maximum id seen. -/
def read_line {F : Type} [DecidableEq F] (st : List (FC F) × ℕ)
    (line : ℕ × String × F) : Except String (List (FC F) × ℕ) :=
  match identIdx st.1 line.2.1 with
  | some k =>
    match st.1.get? k with
    | some fc =>
      (read_feature_helper fc.feature_id line.2.2 line.1).map
        (fun fid' => (st.1.set k ⟨fc.ident, fid'⟩, max st.2 line.1))
    | none => Except.error "bad template index"
  | none => Except.error "cant find feature identifier"

/-- `FeatureClassPtrs::read_feature_ids`: process the feature-definition
lines in order, starting with `maxid = 0`. -/
def read_feature_ids {F : Type} [DecidableEq F] (fcs : List (FC F))
    (lines : List (ℕ × String × F)) : Except String (List (FC F) × ℕ) :=
  lines.foldlM read_line (fcs, 0)

/-- The restored form of one template after a serialize/restore round
trip: the `(instance, id)` pairs in increasing-id order. -/
def restoreFC {F : Type} (fc : FC F) : FC F :=
  ⟨fc.ident,
   ((fc.feature_id.map (fun p => (p.2, p.1))).mergeSort
       (fun a b => decide (a.1 ≤ b.1))).map (fun q => (q.2, q.1))⟩

/-- The registry in the middle of a restore: templates before `j`
restored, templates from `j` on still empty. -/
def fillUpTo {F : Type} (fcs : List (FC F)) (j : ℕ) : List (FC F) :=
  fcs.enum.map (fun q => if q.1 < j then restoreFC q.2 else ⟨q.2.ident, []⟩)

/-! ### Per-template facts about prune-and-renumber -/

theorem keys_prune_helper {F : Type} (fid : List (F × ℕ)) (mc n0 : ℕ) :
    keys (prune_and_renumber_helper fid mc n0).1 =
      (fid.filter (fun p => mc ≤ p.2)).map Prod.fst := by
  simp only [prune_and_renumber_helper, keys, List.map_map]
  have : (Prod.fst ∘ fun q : ℕ × F => (q.2, n0 + q.1)) = Prod.snd := rfl
  rw [this, List.enum_map_snd]

theorem ids_prune_helper {F : Type} (fid : List (F × ℕ)) (mc n0 : ℕ) :
    (prune_and_renumber_helper fid mc n0).1.map Prod.snd =
      List.range' n0 ((fid.filter (fun p => mc ≤ p.2)).length) ∧
    (prune_and_renumber_helper fid mc n0).2 =
      n0 + (fid.filter (fun p => mc ≤ p.2)).length := by
  constructor
  · simp only [prune_and_renumber_helper, List.map_map]
    have h1 : (Prod.snd ∘ fun q : ℕ × F => (q.2, n0 + q.1)) =
        (fun x => n0 + x) ∘ Prod.fst := rfl
    rw [h1, ← List.map_map, List.enum_map_fst, ← List.range'_eq_map_range]
    simp
  · simp [prune_and_renumber_helper]

theorem swapped_prune_helper {F : Type} (fid : List (F × ℕ)) (mc n0 : ℕ) :
    List.Pairwise (fun a b : ℕ × F => a.1 < b.1)
      ((prune_and_renumber_helper fid mc n0).1.map (fun p => (p.2, p.1))) := by
  simp only [prune_and_renumber_helper, List.map_map]
  rw [List.pairwise_map]
  have henum : List.Pairwise (fun a b : ℕ × F => a.1 < b.1)
      (((fid.filter (fun p => mc ≤ p.2)).map Prod.fst).enum) := by
    refine (@List.pairwise_map (ℕ × F) ℕ Prod.fst (fun a b => a < b) _).mp ?_
    rw [List.enum_map_fst]
    exact List.pairwise_lt_range _
  exact henum.imp (fun h => Nat.add_lt_add_left h n0)

theorem snd_pairwise_prune_helper {F : Type} (fid : List (F × ℕ)) (mc n0 : ℕ) :
    List.Pairwise (fun a b : F × ℕ => a.2 < b.2)
      ((prune_and_renumber_helper fid mc n0).1) := by
  simp only [prune_and_renumber_helper]
  rw [List.pairwise_map]
  have henum : List.Pairwise (fun a b : ℕ × F => a.1 < b.1)
      (((fid.filter (fun p => mc ≤ p.2)).map Prod.fst).enum) := by
    refine (@List.pairwise_map (ℕ × F) ℕ Prod.fst (fun a b => a < b) _).mp ?_
    rw [List.enum_map_fst]
    exact List.pairwise_lt_range _
  exact henum.imp (fun h => Nat.add_lt_add_left h n0)

theorem print_prune_helper {F : Type} (s : String) (fid : List (F × ℕ)) (mc n0 : ℕ) :
    print_feature_ids_helper (⟨s, (prune_and_renumber_helper fid mc n0).1⟩ : FC F) =
      (prune_and_renumber_helper fid mc n0).1.map (fun p => (p.2, s, p.1)) ∧
    List.Chain' (fun a b => a.1 < b.1)
      (print_feature_ids_helper (⟨s, (prune_and_renumber_helper fid mc n0).1⟩ : FC F)) := by
  have hpair := swapped_prune_helper fid mc n0
  have hsorted : ((prune_and_renumber_helper fid mc n0).1.map
      (fun p => (p.2, p.1))).mergeSort (fun a b : ℕ × F => decide (a.1 ≤ b.1)) =
      (prune_and_renumber_helper fid mc n0).1.map (fun p => (p.2, p.1)) := by
    apply List.mergeSort_of_sorted
    exact hpair.imp (fun h => decide_eq_true (le_of_lt h))
  have hprint : print_feature_ids_helper
      (⟨s, (prune_and_renumber_helper fid mc n0).1⟩ : FC F) =
      (prune_and_renumber_helper fid mc n0).1.map (fun p => (p.2, s, p.1)) := by
    rw [print_feature_ids_helper]
    simp only [hsorted, List.map_map]
    rfl
  refine ⟨hprint, ?_⟩
  rw [hprint]
  apply List.Pairwise.chain'
  rw [List.pairwise_map]
  exact (snd_pairwise_prune_helper fid mc n0).imp (fun h => h)

/-! ### The registry fold -/

theorem prune_fold_shift {F : Type} (mincount : ℕ) (fcs : List (FC F))
    (a : List (FC F)) (ls : List (ℕ × String × F)) (n0 : ℕ) :
    fcs.foldl (pruneStep mincount) (a, ls, n0) =
      (a ++ (fcs.foldl (pruneStep mincount) ([], [], n0)).1,
       ls ++ (fcs.foldl (pruneStep mincount) ([], [], n0)).2.1,
       (fcs.foldl (pruneStep mincount) ([], [], n0)).2.2) := by
  induction fcs generalizing a ls n0 with
  | nil => simp
  | cons fc rest ih =>
    simp only [List.foldl_cons, pruneStep, List.nil_append]
    conv_lhs => rw [ih]
    conv_rhs => rw [ih]
    simp [List.append_assoc]

theorem prune_fold_spec {F : Type} (mincount : ℕ) (fcs : List (FC F)) (n0 : ℕ) :
    (fcs.foldl (pruneStep mincount) ([], [], n0)).1.length = fcs.length ∧
    (∀ k, ((fcs.foldl (pruneStep mincount) ([], [], n0)).1.get? k).map FC.ident =
        (fcs.get? k).map FC.ident) ∧
    (∀ k fc fc', fcs.get? k = some fc →
        (fcs.foldl (pruneStep mincount) ([], [], n0)).1.get? k = some fc' →
        keys fc'.feature_id =
          (fc.feature_id.filter (fun p => mincount ≤ p.2)).map Prod.fst) ∧
    n0 ≤ (fcs.foldl (pruneStep mincount) ([], [], n0)).2.2 ∧
    ((fcs.foldl (pruneStep mincount) ([], [], n0)).1.map
        (fun fc => fc.feature_id.map Prod.snd)).flatten =
      List.range' n0 ((fcs.foldl (pruneStep mincount) ([], [], n0)).2.2 - n0) ∧
    (fcs.foldl (pruneStep mincount) ([], [], n0)).2.1 =
      ((fcs.foldl (pruneStep mincount) ([], [], n0)).1.map
        print_feature_ids_helper).flatten ∧
    (∀ fc' ∈ (fcs.foldl (pruneStep mincount) ([], [], n0)).1,
        List.Chain' (fun a b => a.1 < b.1) (print_feature_ids_helper fc')) := by
  induction fcs generalizing n0 with
  | nil => simp
  | cons fc rest ih =>
    have hstep : (fc :: rest).foldl (pruneStep mincount) ([], [], n0) =
        ((⟨fc.ident, (prune_and_renumber_helper fc.feature_id mincount n0).1⟩ : FC F) ::
           (rest.foldl (pruneStep mincount)
             ([], [], (prune_and_renumber_helper fc.feature_id mincount n0).2)).1,
         print_feature_ids_helper
             (⟨fc.ident, (prune_and_renumber_helper fc.feature_id mincount n0).1⟩ : FC F) ++
           (rest.foldl (pruneStep mincount)
             ([], [], (prune_and_renumber_helper fc.feature_id mincount n0).2)).2.1,
         (rest.foldl (pruneStep mincount)
             ([], [], (prune_and_renumber_helper fc.feature_id mincount n0).2)).2.2) := by
      simp only [List.foldl_cons, pruneStep, List.nil_append]
      rw [prune_fold_shift]
      simp
    obtain ⟨ih1, ih2, ih3, ih4, ih5, ih6, ih7⟩ :=
      ih (prune_and_renumber_helper fc.feature_id mincount n0).2
    have hn1 := (ids_prune_helper fc.feature_id mincount n0).2
    refine ⟨?_, ?_, ?_, ?_, ?_, ?_, ?_⟩
    · rw [hstep]; simp [ih1]
    · intro k
      rw [hstep]
      cases k with
      | zero => simp
      | succ k => simpa using ih2 k
    · intro k fcx fcx' hget hget'
      rw [hstep] at hget'
      cases k with
      | zero =>
        simp only [List.get?_cons_zero] at hget hget'
        injection hget with hget
        injection hget' with hget'
        rw [← hget, ← hget']
        exact keys_prune_helper fc.feature_id mincount n0
      | succ k =>
        simp only [List.get?_cons_succ] at hget hget'
        exact ih3 k fcx fcx' hget hget'
    · rw [hstep]
      simp only
      omega
    · rw [hstep]
      simp only [List.map_cons, List.flatten_cons]
      rw [(ids_prune_helper fc.feature_id mincount n0).1, ih5]
      have hr := List.range'_append n0
        ((fc.feature_id.filter (fun p => mincount ≤ p.2)).length)
        ((rest.foldl (pruneStep mincount)
          ([], [], (prune_and_renumber_helper fc.feature_id mincount n0).2)).2.2 -
          (prune_and_renumber_helper fc.feature_id mincount n0).2) 1
      rw [one_mul] at hr
      rw [show n0 + (fc.feature_id.filter (fun p => mincount ≤ p.2)).length =
          (prune_and_renumber_helper fc.feature_id mincount n0).2 from hn1.symm] at hr
      rw [hr]
      congr 1
      omega
    · rw [hstep]
      simp only [List.map_cons, List.flatten_cons]
      rw [ih6]
    · rw [hstep]
      intro fc' hmem
      rw [List.mem_cons] at hmem
      rcases hmem with h | h
      · rw [h]
        exact (print_prune_helper fc.ident fc.feature_id mincount n0).2
      · exact ih7 fc' h

/-- **C5.** Prune-and-renumber, applied to all registered templates,
drops exactly those feature instances whose discovery tally is strictly
below the configured minimum count, and assigns each surviving instance
a dense integer id drawn from a single counter threaded through the
templates in registration order, so the ids assigned across the whole
registry are exactly `0, 1, …, total−1` (unique registry-wide); the
surviving `(id, template-identifier, instance)` lines are written
sorted by id within each template. -/
theorem C5_prune_and_renumber {F : Type} (fcs : List (FC F)) (mincount : ℕ) :
    (prune_and_renumber fcs mincount).1.length = fcs.length ∧
    (∀ k, ((prune_and_renumber fcs mincount).1.get? k).map FC.ident =
        (fcs.get? k).map FC.ident) ∧
    (∀ k fc fc', fcs.get? k = some fc →
        (prune_and_renumber fcs mincount).1.get? k = some fc' →
        keys fc'.feature_id =
          (fc.feature_id.filter (fun p => mincount ≤ p.2)).map Prod.fst) ∧
    ((prune_and_renumber fcs mincount).1.map
        (fun fc => fc.feature_id.map Prod.snd)).flatten =
      List.range (prune_and_renumber fcs mincount).2.2 ∧
    (prune_and_renumber fcs mincount).2.1 =
      ((prune_and_renumber fcs mincount).1.map print_feature_ids_helper).flatten ∧
    (∀ fc' ∈ (prune_and_renumber fcs mincount).1,
        List.Chain' (fun a b => a.1 < b.1) (print_feature_ids_helper fc')) := by
  obtain ⟨h1, h2, h3, h4, h5, h6, h7⟩ := prune_fold_spec mincount fcs 0
  rw [prune_and_renumber]
  refine ⟨h1, h2, h3, ?_, h6, h7⟩
  rw [h5, List.range_eq_range']
  simp

/-- Witness for C5: a concrete two-template registry with threshold 2;
template A keeps exactly its feature with tally 5 under id 0, and
template B resumes at id 1. -/
theorem C5_prune_and_renumber_witness :
    ∃ fc' : FC ℕ,
      (prune_and_renumber [⟨"A", [(10, 5), (11, 1)]⟩, ⟨"B", [(20, 7)]⟩] 2).1.get? 0 =
        some fc' ∧
      keys fc'.feature_id = [10] ∧
      ((prune_and_renumber [⟨"A", [(10, 5), (11, 1)]⟩, ⟨"B", [(20, 7)]⟩] 2).1.map
          (fun fc => fc.feature_id.map Prod.snd)).flatten = List.range 2 := by
  have h := C5_prune_and_renumber
    ([⟨"A", [(10, 5), (11, 1)]⟩, ⟨"B", [(20, 7)]⟩] : List (FC ℕ)) 2
  refine ⟨⟨"A", [(10, 0)]⟩, by decide, ?_, ?_⟩
  · have h3 := h.2.2.1 0 ⟨"A", [(10, 5), (11, 1)]⟩ ⟨"A", [(10, 0)]⟩
      (by decide) (by decide)
    rw [h3]
    decide
  · rw [h.2.2.2.1]
    decide

/-! ### Small lemmas for restore -/

theorem mfind_append_none {K V : Type} [DecidableEq K]
    (l₁ l₂ : List (K × V)) (k : K) (h : mfind l₁ k = none) :
    mfind (l₁ ++ l₂) k = mfind l₂ k := by
  induction l₁ with
  | nil => rfl
  | cons q rest ih =>
    obtain ⟨k', v⟩ := q
    simp only [mfind] at h ⊢
    by_cases hk : k = k'
    · rw [if_pos hk] at h; exact absurd h (by simp)
    · rw [if_neg hk] at h ⊢
      exact ih h

theorem set_get_self {α : Type} {l : List α} {k : ℕ} {a : α}
    (h : l.get? k = some a) : l.set k a = l := by
  apply List.ext_getElem?
  intro j
  rw [List.getElem?_set]
  by_cases hj : k = j
  · subst hj
    rw [if_pos rfl]
    rw [← List.get?_eq_getElem?] at *
    have hk : k < l.length := by
      by_contra hk
      rw [List.get?_eq_none.mpr (by omega)] at h
      exact absurd h (by simp)
    rw [if_pos hk]
    exact h.symm
  · rw [if_neg hj]

theorem identIdxFrom_none {F : Type} (base : ℕ) (fcs : List (FC F)) (s : String)
    (h : s ∉ fcs.map FC.ident) : identIdxFrom base fcs s = none := by
  induction fcs generalizing base with
  | nil => rfl
  | cons fc rest ih =>
    simp only [List.map_cons, List.mem_cons] at h
    push_neg at h
    simp only [identIdxFrom, ih (base + 1) h.2]
    rw [if_neg (fun he => h.1 he.symm)]

theorem identIdxFrom_eq {F : Type} (base : ℕ) (fcs : List (FC F)) (s : String)
    (k : ℕ) (fc : FC F) (hnd : (fcs.map FC.ident).Nodup)
    (hget : fcs.get? k = some fc) (hs : fc.ident = s) :
    identIdxFrom base fcs s = some (base + k) := by
  induction fcs generalizing base k with
  | nil => simp [List.get?] at hget
  | cons fc0 rest ih =>
    simp only [List.map_cons, List.nodup_cons] at hnd
    obtain ⟨hnotin, hnd'⟩ := hnd
    cases k with
    | zero =>
      simp only [List.get?_cons_zero] at hget
      injection hget with hget
      subst hget
      have hnone : identIdxFrom (base + 1) rest s = none := by
        apply identIdxFrom_none
        rw [← hs]
        exact hnotin
      simp only [identIdxFrom, hnone]
      rw [if_pos hs]
      simp
    | succ k =>
      simp only [List.get?_cons_succ] at hget
      have := ih (base + 1) k hnd' hget
      simp only [identIdxFrom, this]
      congr 1
      omega

theorem map_ident_set {F : Type} (fcs : List (FC F)) (k : ℕ) (fc fc' : FC F)
    (hget : fcs.get? k = some fc) (hident : fc'.ident = fc.ident) :
    (fcs.set k fc').map FC.ident = fcs.map FC.ident := by
  apply List.ext_getElem?
  intro j
  rw [List.getElem?_map, List.getElem?_map, List.getElem?_set]
  by_cases h : k = j
  · subst h
    rw [← List.get?_eq_getElem?] at *
    have hk : k < fcs.length := by
      by_contra hk
      rw [List.get?_eq_none.mpr (by omega)] at hget
      exact absurd hget (by simp)
    rw [if_pos rfl, if_pos hk, hget]
    simp [hident]
  · rw [if_neg h]

theorem fillUpTo_getElem {F : Type} (fcs : List (FC F)) (j i : ℕ) :
    (fillUpTo fcs j)[i]? =
      (fcs[i]?).map (fun x => if i < j then restoreFC x else ⟨x.ident, []⟩) := by
  rw [fillUpTo, List.getElem?_map, List.getElem?_enum]
  cases fcs[i]? <;> simp

theorem fillUpTo_zero {F : Type} (fcs : List (FC F)) :
    fillUpTo fcs 0 = resetFCs fcs := by
  apply List.ext_getElem?
  intro i
  rw [fillUpTo_getElem, resetFCs, List.getElem?_map]
  cases fcs[i]? with
  | none => rfl
  | some fc => simp

theorem fillUpTo_length {F : Type} (fcs : List (FC F)) :
    fillUpTo fcs fcs.length = fcs.map restoreFC := by
  apply List.ext_getElem?
  intro i
  rw [fillUpTo_getElem, List.getElem?_map]
  cases hi : fcs[i]? with
  | none => simp
  | some fc =>
    have : i < fcs.length := by
      by_contra hk
      rw [List.getElem?_eq_none (by omega)] at hi
      exact absurd hi (by simp)
    simp [this]

theorem map_ident_fillUpTo {F : Type} (fcs : List (FC F)) (j : ℕ) :
    (fillUpTo fcs j).map FC.ident = fcs.map FC.ident := by
  apply List.ext_getElem?
  intro i
  rw [List.getElem?_map, List.getElem?_map, fillUpTo_getElem]
  cases fcs[i]? with
  | none => simp
  | some fc =>
    simp only [Option.map_some']
    by_cases h : i < j <;> simp [h, restoreFC]

theorem fillUpTo_get_unfilled {F : Type} (fcs : List (FC F)) (j : ℕ) (fc : FC F)
    (hget : fcs.get? j = some fc) :
    (fillUpTo fcs j).get? j = some ⟨fc.ident, []⟩ := by
  rw [List.get?_eq_getElem?, fillUpTo_getElem, ← List.get?_eq_getElem?, hget]
  simp

theorem fillUpTo_set {F : Type} (fcs : List (FC F)) (j : ℕ) (fc : FC F)
    (hget : fcs.get? j = some fc) :
    (fillUpTo fcs j).set j (restoreFC fc) = fillUpTo fcs (j + 1) := by
  apply List.ext_getElem?
  intro i
  rw [List.getElem?_set, fillUpTo_getElem, fillUpTo_getElem]
  by_cases h : j = i
  · subst h
    have hj : j < fcs.length := by
      by_contra hk
      rw [List.get?_eq_getElem?, List.getElem?_eq_none (by omega)] at hget
      exact absurd hget (by simp)
    have hlen : j < (fillUpTo fcs j).length := by
      rw [fillUpTo, List.length_map, List.enum_length]
      exact hj
    rw [if_pos rfl, if_pos hlen]
    rw [List.get?_eq_getElem?] at hget
    rw [hget]
    simp
  · rw [if_neg h]
    cases fcs[i]? with
    | none => simp
    | some fc' =>
      simp only [Option.map_some']
      by_cases hij : i < j
      · rw [if_pos hij, if_pos (by omega)]
      · have : ¬ i < j + 1 := by omega
        rw [if_neg hij, if_neg this]

theorem mfind_eq_some_of_mem_nodup {K V : Type} [DecidableEq K]
    {l : List (K × V)} (hnd : (keys l).Nodup) {k : K} {v : V}
    (h : (k, v) ∈ l) : mfind l k = some v := by
  induction l with
  | nil => simp at h
  | cons q rest ih =>
    obtain ⟨k', v'⟩ := q
    simp only [keys, List.map_cons, List.nodup_cons] at hnd
    obtain ⟨hnotin, hnd'⟩ := hnd
    rw [List.mem_cons] at h
    rcases h with h | h
    · injection h with h1 h2; subst h1; subst h2
      simp [mfind]
    · have hk : k ≠ k' := by
        intro he
        subst he
        exact hnotin (by simpa [keys] using List.mem_map_of_mem Prod.fst h)
      simp only [mfind, if_neg hk]
      exact ih hnd' h

theorem mfind_eq_of_perm {K V : Type} [DecidableEq K]
    {l₁ l₂ : List (K × V)} (hp : l₁.Perm l₂) (hnd : (keys l₂).Nodup) (k : K) :
    mfind l₁ k = mfind l₂ k := by
  have hnd₁ : (keys l₁).Nodup := ((hp.map Prod.fst).nodup_iff).mpr hnd
  cases h1 : mfind l₁ k with
  | none =>
    rw [mfind_eq_none_iff_not_mem_keys] at h1
    have h2 : k ∉ keys l₂ := fun hk => h1 ((hp.map Prod.fst).mem_iff.mpr hk)
    rw [eq_comm, mfind_eq_none_iff_not_mem_keys]
    exact h2
  | some v =>
    have hm : (k, v) ∈ l₂ := hp.mem_iff.mp (mem_of_mfind_eq_some h1)
    rw [mfind_eq_some_of_mem_nodup hnd hm]

/-! ### Restoring one template's block of lines -/

theorem read_block {F : Type} [DecidableEq F] (s : String) (ps : List (ℕ × F)) :
    ∀ (fcs : List (FC F)) (k : ℕ) (fc : FC F) (m0 : ℕ),
      (fcs.map FC.ident).Nodup →
      fcs.get? k = some fc →
      fc.ident = s →
      (ps.map Prod.snd).Nodup →
      (∀ q ∈ ps, mfind fc.feature_id q.2 = none) →
      ∃ m1, (ps.map (fun q => (q.1, s, q.2))).foldlM read_line (fcs, m0) =
        Except.ok
          (fcs.set k ⟨fc.ident, fc.feature_id ++ ps.map (fun q => (q.2, q.1))⟩, m1) := by
  induction ps with
  | nil =>
    intro fcs k fc m0 _ hget _ _ _
    refine ⟨m0, ?_⟩
    simp only [List.map_nil, List.foldlM_nil, List.append_nil]
    have he : (⟨fc.ident, fc.feature_id⟩ : FC F) = fc := rfl
    rw [he, set_get_self hget]
    rfl
  | cons q ps ih =>
    intro fcs k fc m0 hnd hget hs hndp hfresh
    obtain ⟨id, f⟩ := q
    simp only [List.map_cons, List.foldlM_cons]
    have hidx : identIdx fcs s = some k := by
      have h := identIdxFrom_eq 0 fcs s k fc hnd hget hs
      simpa [identIdx] using h
    have hmf : mfind fc.feature_id f = none :=
      hfresh (id, f) (List.mem_cons_self _ _)
    have hget2 : fcs[k]? = some fc := by
      rw [← List.get?_eq_getElem?]
      exact hget
    have hline : read_line (fcs, m0) (id, s, f) =
        Except.ok (fcs.set k ⟨fc.ident, fc.feature_id ++ [(f, id)]⟩, max m0 id) := by
      rw [read_line]
      simp [hidx, hget2, read_feature_helper, hmf, Except.map]
    rw [hline]
    simp only [List.map_cons, List.nodup_cons] at hndp
    obtain ⟨hfnotin, hndp'⟩ := hndp
    have hk : k < fcs.length := by
      by_contra hk
      rw [List.get?_eq_getElem?, List.getElem?_eq_none (by omega)] at hget
      exact absurd hget (by simp)
    have hget' : (fcs.set k ⟨fc.ident, fc.feature_id ++ [(f, id)]⟩).get? k =
        some ⟨fc.ident, fc.feature_id ++ [(f, id)]⟩ := by
      rw [List.get?_eq_getElem?]
      rw [List.getElem?_set]
      rw [if_pos rfl, if_pos (by simpa using hk)]
    have hnd' : ((fcs.set k ⟨fc.ident, fc.feature_id ++ [(f, id)]⟩).map FC.ident).Nodup := by
      rw [map_ident_set fcs k fc ⟨fc.ident, fc.feature_id ++ [(f, id)]⟩ hget rfl]
      exact hnd
    have hfresh' : ∀ q' ∈ ps,
        mfind (fc.feature_id ++ [(f, id)]) q'.2 = none := by
      intro q' hq'
      rw [mfind_append_none _ _ _ (hfresh q' (List.mem_cons_of_mem _ hq'))]
      have : q'.2 ≠ f := by
        intro he
        exact hfnotin (he ▸ List.mem_map_of_mem Prod.snd hq')
      simp [mfind, this]
    obtain ⟨m1, hrest⟩ := ih (fcs.set k ⟨fc.ident, fc.feature_id ++ [(f, id)]⟩) k
      ⟨fc.ident, fc.feature_id ++ [(f, id)]⟩ (max m0 id) hnd' hget' hs hndp' hfresh'
    refine ⟨m1, ?_⟩
    have hbind : (((Except.ok
        (fcs.set k ⟨fc.ident, fc.feature_id ++ [(f, id)]⟩, max m0 id)) :
          Except String (List (FC F) × ℕ)) >>=
        fun st => (ps.map (fun q => (q.1, s, q.2))).foldlM read_line st) =
        (ps.map (fun q => (q.1, s, q.2))).foldlM read_line
          (fcs.set k ⟨fc.ident, fc.feature_id ++ [(f, id)]⟩, max m0 id) := rfl
    rw [hbind, hrest, List.set_set]
    simp [List.append_assoc]

/-! ### Restoring the whole serialized registry -/

theorem restore_blocks {F : Type} [DecidableEq F] (fcs : List (FC F))
    (hident : (fcs.map FC.ident).Nodup)
    (hkeys : ∀ fc ∈ fcs, (keys fc.feature_id).Nodup) :
    ∀ (d j m0 : ℕ), j + d = fcs.length →
      ∃ m1, (((fcs.drop j).map print_feature_ids_helper).flatten).foldlM read_line
          (fillUpTo fcs j, m0) =
        Except.ok (fillUpTo fcs fcs.length, m1) := by
  intro d
  induction d with
  | zero =>
    intro j m0 hj
    refine ⟨m0, ?_⟩
    have hj' : j = fcs.length := by omega
    subst hj'
    simp only [List.drop_length, List.map_nil, List.flatten_nil, List.foldlM_nil]
    rfl
  | succ d ih =>
    intro j m0 hj
    have hjlt : j < fcs.length := by omega
    have hgetj : fcs.get? j = some (fcs.get ⟨j, hjlt⟩) := List.get?_eq_get hjlt
    have hdrop : fcs.drop j = fcs.get ⟨j, hjlt⟩ :: fcs.drop (j + 1) := by
      rw [List.drop_eq_getElem_cons hjlt]
      rfl
    rw [hdrop]
    simp only [List.map_cons, List.flatten_cons]
    rw [List.foldlM_append]
    have hperm : ((fcs.get ⟨j, hjlt⟩).feature_id.map
        (fun p => (p.2, p.1))).mergeSort (fun a b => decide (a.1 ≤ b.1)) |>.Perm
        ((fcs.get ⟨j, hjlt⟩).feature_id.map (fun p => (p.2, p.1))) :=
      List.mergeSort_perm _ _
    have hndps : ((((fcs.get ⟨j, hjlt⟩).feature_id.map
        (fun p => (p.2, p.1))).mergeSort
          (fun a b => decide (a.1 ≤ b.1))).map Prod.snd).Nodup := by
      have h1 : ((((fcs.get ⟨j, hjlt⟩).feature_id.map
          (fun p => (p.2, p.1))).mergeSort
            (fun a b => decide (a.1 ≤ b.1))).map Prod.snd).Perm
          (keys (fcs.get ⟨j, hjlt⟩).feature_id) := by
        have h2 := hperm.map Prod.snd
        rw [List.map_map] at h2
        exact h2
      rw [h1.nodup_iff]
      exact hkeys _ (List.get_mem fcs j hjlt)
    obtain ⟨mI, hblock⟩ := read_block (fcs.get ⟨j, hjlt⟩).ident
      (((fcs.get ⟨j, hjlt⟩).feature_id.map (fun p => (p.2, p.1))).mergeSort
        (fun a b => decide (a.1 ≤ b.1)))
      (fillUpTo fcs j) j ⟨(fcs.get ⟨j, hjlt⟩).ident, []⟩ m0
      (by rw [map_ident_fillUpTo]; exact hident)
      (fillUpTo_get_unfilled fcs j _ hgetj)
      rfl hndps (by intro q _; rfl)
    have hprint : print_feature_ids_helper (fcs.get ⟨j, hjlt⟩) =
        ((((fcs.get ⟨j, hjlt⟩).feature_id.map (fun p => (p.2, p.1))).mergeSort
          (fun a b => decide (a.1 ≤ b.1))).map
            (fun q => (q.1, (fcs.get ⟨j, hjlt⟩).ident, q.2))) := rfl
    rw [hprint, hblock]
    have hfc' : (⟨(fcs.get ⟨j, hjlt⟩).ident,
        [] ++ (((fcs.get ⟨j, hjlt⟩).feature_id.map (fun p => (p.2, p.1))).mergeSort
          (fun a b => decide (a.1 ≤ b.1))).map (fun q => (q.2, q.1))⟩ : FC F) =
        restoreFC (fcs.get ⟨j, hjlt⟩) := by
      rw [restoreFC]
      simp
    rw [hfc', fillUpTo_set fcs j _ hgetj]
    obtain ⟨m1, hrest⟩ := ih (j + 1) mI (by omega)
    refine ⟨m1, ?_⟩
    have hbind : (((Except.ok (fillUpTo fcs (j + 1), mI)) :
          Except String (List (FC F) × ℕ)) >>=
        fun st => (((fcs.drop (j + 1)).map print_feature_ids_helper).flatten).foldlM
          read_line st) =
        (((fcs.drop (j + 1)).map print_feature_ids_helper).flatten).foldlM
          read_line (fillUpTo fcs (j + 1), mI) := rfl
    rw [hbind, hrest]

/-- **C6.** Round-trip of the feature-definition mapping: serializing
every template's `(instance, id)` pairs in the one-line-per-feature
form and reading that text back into a fresh registry built with the
same templates yields, for every surviving feature, exactly the
original instance→id mapping. -/
theorem C6_roundtrip {F : Type} [DecidableEq F] (fcs : List (FC F))
    (hident : (fcs.map FC.ident).Nodup)
    (hkeys : ∀ fc ∈ fcs, (keys fc.feature_id).Nodup) :
    ∃ st, read_feature_ids (resetFCs fcs)
        ((fcs.map print_feature_ids_helper).flatten) = Except.ok st ∧
      List.Forall₂
        (fun r o => r.ident = o.ident ∧
          ∀ f : F, mfind r.feature_id f = mfind o.feature_id f) st.1 fcs := by
  obtain ⟨m1, h⟩ := restore_blocks fcs hident hkeys fcs.length 0 0 (by omega)
  refine ⟨(fillUpTo fcs fcs.length, m1), ?_, ?_⟩
  · rw [read_feature_ids, ← fillUpTo_zero]
    simpa using h
  · rw [fillUpTo_length, List.forall₂_map_left_iff, List.forall₂_same]
    intro fc hfc
    refine ⟨rfl, ?_⟩
    intro f
    apply mfind_eq_of_perm _ (hkeys fc hfc)
    have h1 : ((fc.feature_id.map (fun p => (p.2, p.1))).mergeSort
        (fun a b => decide (a.1 ≤ b.1))).map (fun q : ℕ × F => (q.2, q.1)) |>.Perm
        ((fc.feature_id.map (fun p => (p.2, p.1))).map (fun q : ℕ × F => (q.2, q.1))) :=
      (List.mergeSort_perm _ _).map _
    have h2 : (fc.feature_id.map (fun p : F × ℕ => (p.2, p.1))).map
        (fun q : ℕ × F => (q.2, q.1)) = fc.feature_id := by
      rw [List.map_map]
      exact List.map_id fc.feature_id
    rw [h2] at h1
    exact h1

/-- Witness for C6: a one-template registry with two features
round-trips. -/
theorem C6_roundtrip_witness :
    ∃ st, read_feature_ids (resetFCs [(⟨"A", [(10, 0), (11, 1)]⟩ : FC ℕ)])
        (([(⟨"A", [(10, 0), (11, 1)]⟩ : FC ℕ)].map print_feature_ids_helper).flatten) =
      Except.ok st ∧
      List.Forall₂
        (fun r o => r.ident = o.ident ∧
          ∀ f : ℕ, mfind r.feature_id f = mfind o.feature_id f) st.1
        [(⟨"A", [(10, 0), (11, 1)]⟩ : FC ℕ)] :=
  C6_roundtrip [(⟨"A", [(10, 0), (11, 1)]⟩ : FC ℕ)] (by decide) (by decide)

/-! ### Claim C8: fatal restore errors -/

/-- **C8.** During restore of the feature-definition file, reading a
feature instance that is already present in the owning template's
mapping is a fatal error (the process reports it and terminates
immediately with a nonzero exit status, modelled by `Except.error`);
restoring a line whose template-identifier matches no registered
template is likewise fatal. -/
theorem C8_restore_fatal {F : Type} [DecidableEq F] (fcs : List (FC F))
    (pre : List (ℕ × String × F)) (id : ℕ) (s : String) (f : F)
    (rest : List (ℕ × String × F)) (st : List (FC F) × ℕ)
    (hpre : pre.foldlM read_line (fcs, 0) = Except.ok st) :
    (∀ k fc, identIdx st.1 s = some k → st.1.get? k = some fc →
        (mfind fc.feature_id f).isSome = true →
        read_feature_ids fcs (pre ++ (id, s, f) :: rest) =
          Except.error "duplicate feature") ∧
    (identIdx st.1 s = none →
        read_feature_ids fcs (pre ++ (id, s, f) :: rest) =
          Except.error "cant find feature identifier") := by
  have hsplit : read_feature_ids fcs (pre ++ (id, s, f) :: rest) =
      ((id, s, f) :: rest).foldlM read_line st := by
    rw [read_feature_ids, List.foldlM_append, hpre]
    rfl
  constructor
  · intro k fc hidx hget hdup
    rw [hsplit]
    simp only [List.foldlM_cons]
    have hget2 : st.1[k]? = some fc := by
      rw [← List.get?_eq_getElem?]
      exact hget
    have hline : read_line st (id, s, f) = Except.error "duplicate feature" := by
      rw [read_line]
      simp [hidx, hget2, read_feature_helper, hdup, Except.map]
    rw [hline]
    rfl
  · intro hidx
    rw [hsplit]
    simp only [List.foldlM_cons]
    have hline : read_line st (id, s, f) =
        Except.error "cant find feature identifier" := by
      rw [read_line]
      simp [hidx]
    rw [hline]
    rfl

/-- Witness for C8: a registry with one template `T`; reading the
instance 5 for `T` a second time is a fatal error. -/
theorem C8_restore_fatal_witness :
    read_feature_ids [(⟨"T", []⟩ : FC ℕ)] [(0, "T", 5), (1, "T", 5)] =
      Except.error "duplicate feature" := by
  have h := C8_restore_fatal [(⟨"T", []⟩ : FC ℕ)] [(0, "T", 5)] 1 "T" 5 []
    ([⟨"T", [(5, 0)]⟩], 0) (by rfl)
  exact h.1 0 ⟨"T", [(5, 0)]⟩ (by decide) (by decide) (by decide)

/-! ## The edge-context templates `Edges` and `WSEdges` (claim C3) -/

/-- A preterminal node as the edge templates read it: its category
(`label.cat`), the category of its terminal child (`child->label.cat`,
the word), and its punctuation / closed-class classification (computed
by the upstream tree annotation). -/
structure Preterm where
  cat : String
  word : String
  punct : Bool
  closed : Bool
  deriving DecidableEq, Inhabited

/-- The fields of a candidate node read by `node_featurecount`. -/
structure SpanNode where
  nonterminal : Bool
  left : ℕ
  right : ℕ
  cat : String
  deriving DecidableEq

/-- `FeatureClass::endmarker()`. -/
def endmarker : String := "_"

/-- `FeatureClass::symbol_quantize`. -/
def symbol_quantize (v : ℕ) : String :=
  match v with
  | 0 => "0"
  | 1 => "1"
  | 2 => "2"
  | 3 => "4"
  | 4 => "4"
  | _ => "5"

/-- The constructor configuration of an `Edges` template. -/
structure EdgesCfg where
  binned_length : Bool
  nleftprec : ℕ
  nleftsucc : ℕ
  nrightprec : ℕ
  nrightsucc : ℕ

/-- `Edges::node_featurecount`: the feature instances this node
contributes (`[]` when the node is skipped, one instance otherwise).
Note: the function performs no overlap check of any kind. -/
def edgesNodeFeatures (cfg : EdgesCfg) (preterms : List Preterm)
    (node : SpanNode) : List (List String) :=
  if !node.nonterminal then []
  else
    let nwords := preterms.length
    let f :=
      (if cfg.binned_length then [symbol_quantize (node.right - node.left)] else [])
      ++ [node.cat]
      ++ (List.range cfg.nleftprec).map (fun j =>
            if j + 1 ≤ node.left then (preterms.getD (node.left - (j + 1)) default).cat
            else endmarker)
      ++ (List.range cfg.nleftsucc).map (fun i =>
            if node.left + i < nwords then (preterms.getD (node.left + i) default).cat
            else endmarker)
      ++ (List.range cfg.nrightprec).map (fun j =>
            if j + 1 ≤ node.right then (preterms.getD (node.right - (j + 1)) default).cat
            else endmarker)
      ++ (List.range cfg.nrightsucc).map (fun i =>
            if node.right + i < nwords then (preterms.getD (node.right + i) default).cat
            else endmarker)
    [f]

/-- `FeatureClass::suffix`: the last `n` letters of a symbol (the whole
symbol when `n = 0` or the symbol is no longer than `n`). -/
def suffix (s : String) (n : ℕ) : String :=
  if n = 0 ∨ s.length ≤ n then s
  else String.mk (s.toList.drop (s.length - n))

/-- One edge-side configuration `WSEdges::E`. -/
structure WSE where
  punct : ℕ
  pos : ℕ
  closed : ℕ
  word : ℕ
  nsuffix : ℕ

/-- `WSEdges::E::width()`.  (Note: `closed` is not included.) -/
def WSE.width (e : WSE) : ℕ := max (max e.punct e.pos) e.word

/-- `WSEdges::E::push_features`: walk `punct`/`pos`/`closed`/`word`
positions from `position` in direction `direction`, pushing the end
marker for out-of-sentence positions. -/
def WSE.push_features (e : WSE) (preterms : List Preterm)
    (position direction : ℤ) : List String :=
  let n : ℤ := preterms.length
  let tok : ℤ → (Preterm → String) → String := fun j get =>
    if j < 0 ∨ n ≤ j then endmarker else get (preterms.getD j.toNat default)
  ((List.range e.punct).map (fun i =>
      tok (position + (i : ℤ) * direction) (fun p => if p.punct then p.cat else "0")))
  ++ ((List.range e.pos).map (fun i =>
      tok (position + (i : ℤ) * direction) (fun p => p.cat)))
  ++ ((List.range e.closed).map (fun i =>
      tok (position + (i : ℤ) * direction)
        (fun p => if p.closed || p.punct then p.word else p.cat)))
  ++ ((List.range e.word).map (fun i =>
      tok (position + (i : ℤ) * direction) (fun p => suffix p.word e.nsuffix)))

/-- The constructor configuration of a `WSEdges` template. -/
structure WSEdgesCfg where
  leftleft : WSE
  leftright : WSE
  rightleft : WSE
  rightright : WSE
  binned_length : Bool

/-- `WSEdges::node_featurecount`, including its three rejection guards
("don't permit feature to overlap both edges"). -/
def wsedgesNodeFeatures (cfg : WSEdgesCfg) (preterms : List Preterm)
    (node : SpanNode) : List (List String) :=
  if !node.nonterminal then []
  else
    let left : ℤ := node.left
    let right : ℤ := node.right
    let nwords : ℤ := preterms.length
    if left + cfg.leftright.width > right ∨ left + cfg.rightleft.width > right then []
    else if left + 1 < cfg.leftleft.width then []
    else if right + cfg.rightright.width > nwords then []
    else
      [[node.cat]
        ++ (if cfg.binned_length then [symbol_quantize (node.right - node.left)] else [])
        ++ cfg.leftleft.push_features preterms (left - 1) (-1)
        ++ cfg.leftright.push_features preterms left 1
        ++ cfg.rightleft.push_features preterms (right - 1) (-1)
        ++ cfg.rightright.push_features preterms right 1]

/-- **C3 is false as stated.**  `Edges::node_featurecount` contains no
boundary-overlap check: an `Edges` template with `nleftsucc = 2` and
`nrightprec = 2` applied to a nonterminal constituent of span length 1
emits one instance for that constituent (with windows running past the
opposite boundary), not none. -/
theorem C3_counterexample :
    edgesNodeFeatures ⟨false, 0, 2, 2, 0⟩
      [⟨"DT", "the", false, true⟩, ⟨"NN", "dog", false, false⟩]
      ⟨true, 0, 1, "NP"⟩ = [["NP", "DT", "NN", "DT", "_"]] ∧
    edgesNodeFeatures ⟨false, 0, 2, 2, 0⟩
      [⟨"DT", "the", false, true⟩, ⟨"NN", "dog", false, false⟩]
      ⟨true, 0, 1, "NP"⟩ ≠ [] := by decide

/-- **C3 (amended).** Within the Edges family, only `WSEdges` rejects
windows that would overlap the opposite boundary of the constituent:
when an inner window is wider than the constituent
(`left + leftright.width > right` or `left + rightleft.width > right`),
`WSEdges::node_featurecount` emits no instance for that node.
`Edges::node_featurecount` performs no such check and emits exactly one
instance for every nonterminal node, in particular for a span-1
constituent under `nleftsucc = 2, nrightprec = 2`. -/
theorem C3_edge_overlap (cfg : WSEdgesCfg) (ecfg : EdgesCfg)
    (preterms : List Preterm) (node : SpanNode)
    (hnt : node.nonterminal = true) :
    ((node.left : ℤ) + cfg.leftright.width > (node.right : ℤ) ∨
     (node.left : ℤ) + cfg.rightleft.width > (node.right : ℤ) →
      wsedgesNodeFeatures cfg preterms node = []) ∧
    (edgesNodeFeatures ecfg preterms node).length = 1 := by
  constructor
  · intro h
    rw [wsedgesNodeFeatures]
    rw [hnt]
    simp only [Bool.not_true, Bool.false_eq_true, if_false]
    rw [if_pos h]
  · rw [edgesNodeFeatures]
    rw [hnt]
    simp

/-- Witness for the amended C3: the span-1 constituent with
symmetric 2-word inner windows; `WSEdges` (inner `pos`-windows of
width 2) emits nothing, `Edges` emits one instance. -/
theorem C3_edge_overlap_witness :
    wsedgesNodeFeatures
        ⟨⟨0, 0, 0, 0, 0⟩, ⟨0, 2, 0, 0, 0⟩, ⟨0, 2, 0, 0, 0⟩, ⟨0, 0, 0, 0, 0⟩, false⟩
        [⟨"DT", "the", false, true⟩, ⟨"NN", "dog", false, false⟩]
        ⟨true, 0, 1, "NP"⟩ = [] ∧
    (edgesNodeFeatures ⟨false, 0, 2, 2, 0⟩
        [⟨"DT", "the", false, true⟩, ⟨"NN", "dog", false, false⟩]
        ⟨true, 0, 1, "NP"⟩).length = 1 := by
  have h := C3_edge_overlap
    ⟨⟨0, 0, 0, 0, 0⟩, ⟨0, 2, 0, 0, 0⟩, ⟨0, 2, 0, 0, 0⟩, ⟨0, 0, 0, 0, 0⟩, false⟩
    ⟨false, 0, 2, 2, 0⟩
    [⟨"DT", "the", false, true⟩, ⟨"NN", "dog", false, false⟩]
    ⟨true, 0, 1, "NP"⟩ rfl
  exact ⟨h.1 (by decide), h.2⟩

/-! ## The `NGramTree` template (claim C10) -/

/-- Modelled from the spec: the annotated parse tree in its
first-child/next-sibling representation (the `sptree` type of the
upstream tree library, which is not among the given sources): a node
has a category symbol, left/right span bounds, a first-child pointer
and a next-sibling pointer; `SPT.null` models the null pointer.  The
parent pointer is modelled by the explicit ancestor paths below. -/
inductive SPT : Type
  | null
  | node (cat : String) (left right : ℕ) (child next : SPT)
  deriving DecidableEq

def SPT.isNull : SPT → Bool
  | .null => true
  | _ => false

def SPT.cat : SPT → String
  | .null => ""
  | .node c _ _ _ _ => c

def SPT.left : SPT → ℕ
  | .null => 0
  | .node _ l _ _ _ => l

def SPT.right : SPT → ℕ
  | .null => 0
  | .node _ _ r _ _ => r

def SPT.child : SPT → SPT
  | .null => .null
  | .node _ _ _ ch _ => ch

def SPT.next : SPT → SPT
  | .null => .null
  | .node _ _ _ _ nx => nx

/-- `tree::is_preterminal()`: has a child, and the child is a terminal
(spec: "a preterminal node has exactly one child (the terminal)"). -/
def SPT.isPreterminal (t : SPT) : Bool :=
  !t.child.isNull && t.child.child.isNull

/-- `tree::is_nonterminal()`: has a child that is itself nonterminal. -/
def SPT.isNonterminal (t : SPT) : Bool :=
  !t.child.isNull && !t.child.child.isNull

/-- Modelled from the spec: `preterminal_nodes` collects the
preterminal nodes of the subtree in left-to-right order (the tree
library is not among the given sources). -/
def preterminal_nodes : SPT → List SPT
  | .null => []
  | SPT.node c l r ch nx =>
      (if (SPT.node c l r ch nx).isPreterminal then [SPT.node c l r ch nx]
       else preterminal_nodes ch) ++ preterminal_nodes nx

/-- For each preterminal (in left-to-right order), its ancestor chain
`[preterminal, parent, …]` extended with the accumulated ancestors
`ancs`; this models the `label.parent` pointers of `sptree`. -/
def ancestor_paths : SPT → List SPT → List (List SPT)
  | .null, _ => []
  | SPT.node c l r ch nx, ancs =>
      (if (SPT.node c l r ch nx).isPreterminal
       then [SPT.node c l r ch nx :: ancs]
       else ancestor_paths ch (SPT.node c l r ch nx :: ancs)) ++
      ancestor_paths nx ancs

/-- The fragment trees built by `selective_copy` (the plain `tree` type,
first-child/next-sibling). -/
inductive Frag : Type
  | null
  | node (cat : String) (child next : Frag)
  deriving DecidableEq

/-- The `lexicalize_type` enumeration of `NGramTree`. -/
inductive LexT : Type
  | none
  | closed_class
  | functional
  | all
  deriving DecidableEq

/-- The constructor configuration of an `NGramTree` template. -/
structure NGCfg where
  ngram : ℕ
  lexicalize : LexT
  collapse : Bool
  nancs : ℕ

/-- `NGramTree::selective_copy`.  `isFunc`/`isClosed` model the
`is_functional()`/`is_closed_class()` category classifications of the
upstream head library (not among the given sources). -/
def selective_copy (cfg : NGCfg) (isFunc isClosed : String → Bool) :
    SPT → ℕ → ℕ → Bool → Frag
  | .null, _, _, _ => .null
  | SPT.node c left right ch nx, l, r, copy_next =>
      if cfg.collapse ∧ right ≤ l then
        (if ¬ nx.isNull ∧ copy_next then
          selective_copy cfg isFunc isClosed nx l r copy_next
         else .null)
      else if cfg.collapse ∧ r ≤ left then .null
      else
        Frag.node c
          (if ¬ ch.isNull ∧ left < r ∧ l < right ∧
              ((SPT.node c left right ch nx).isNonterminal = true ∨
               cfg.lexicalize = LexT.all ∨
               (cfg.lexicalize = LexT.functional ∧ isFunc c = true) ∨
               (cfg.lexicalize = LexT.closed_class ∧ isClosed c = true))
           then selective_copy cfg isFunc isClosed ch l r true
           else .null)
          (if copy_next ∧ ¬ nx.isNull then
            selective_copy cfg isFunc isClosed nx l r copy_next
           else .null)

/-- The window loop of `NGramTree::tree_featurecount`: for each window
start `i` (in increasing order), climb from preterminal `i` to the
lowest ancestor whose right boundary reaches `i + ngram`, climb `nancs`
further ancestors, and emit the `selective_copy` fragment; if the climb
runs above the root (`t0 == NULL`), `return` aborts all remaining
windows. -/
def ngramLoop (cfg : NGCfg) (isFunc isClosed : String → Bool) :
    List (ℕ × List SPT) → List (ℕ × Frag)
  | [] => []
  | (i, path) :: rest =>
      match (path.dropWhile (fun t => t.right < i + cfg.ngram)).drop cfg.nancs with
      | [] => []
      | t0 :: _ =>
          (i, selective_copy cfg isFunc isClosed t0 i (i + cfg.ngram) false) ::
            ngramLoop cfg isFunc isClosed rest

/-- `NGramTree::tree_featurecount`: the `(window start, fragment)`
increments made to `feat_count`, in order.  The loop bound
`i + ngram < preterms.size()` is expressed as
`i ∈ range (preterms.length - ngram)`. -/
def tree_featurecount (cfg : NGCfg) (isFunc isClosed : String → Bool)
    (root : SPT) : List (ℕ × Frag) :=
  let preterms := preterminal_nodes root
  let paths := ancestor_paths root []
  ngramLoop cfg isFunc isClosed
    ((List.range (preterms.length - cfg.ngram)).map (fun i => (i, paths.getD i [])))

/-! ### Lemmas about the window loop -/

theorem ancestor_paths_length (t : SPT) :
    ∀ ancs, (ancestor_paths t ancs).length = (preterminal_nodes t).length := by
  induction t with
  | null => intro ancs; rfl
  | node c l r ch nx ihc ihn =>
    intro ancs
    rw [ancestor_paths, preterminal_nodes]
    by_cases h : (SPT.node c l r ch nx).isPreterminal = true
    · simp [h, ihn]
    · simp only [List.length_append]
      rw [if_neg h, if_neg h]
      rw [ihc, ihn]

theorem ancestor_paths_suffix (t : SPT) :
    ∀ ancs p, p ∈ ancestor_paths t ancs → ∃ pre, pre ≠ [] ∧ p = pre ++ ancs := by
  induction t with
  | null => intro ancs p hp; simp [ancestor_paths] at hp
  | node c l r ch nx ihc ihn =>
    intro ancs p hp
    rw [ancestor_paths] at hp
    rw [List.mem_append] at hp
    rcases hp with hp | hp
    · by_cases h : (SPT.node c l r ch nx).isPreterminal = true
      · rw [if_pos h, List.mem_singleton] at hp
        exact ⟨[SPT.node c l r ch nx], by simp, hp⟩
      · rw [if_neg h] at hp
        obtain ⟨pre, hne, hpre⟩ := ihc _ p hp
        refine ⟨pre ++ [SPT.node c l r ch nx], by simp, ?_⟩
        rw [hpre, List.append_assoc]
        rfl
    · exact ihn _ p hp

theorem root_mem_ancestor_paths (root : SPT) (hnext : root.next = SPT.null) :
    ∀ p ∈ ancestor_paths root [], root ∈ p := by
  cases root with
  | null => intro p hp; simp [ancestor_paths] at hp
  | node c l r ch nx =>
    intro p hp
    have hnx : nx = SPT.null := hnext
    subst hnx
    rw [ancestor_paths] at hp
    simp only [ancestor_paths, List.append_nil] at hp
    by_cases h : (SPT.node c l r ch SPT.null).isPreterminal = true
    · rw [if_pos h, List.mem_singleton] at hp
      rw [hp]
      exact List.mem_cons_self _ _
    · rw [if_neg h] at hp
      obtain ⟨pre, _, hpre⟩ := ancestor_paths_suffix ch _ p hp
      rw [hpre]
      simp

theorem ngramLoop_length_le (cfg : NGCfg) (isFunc isClosed : String → Bool)
    (ws : List (ℕ × List SPT)) :
    (ngramLoop cfg isFunc isClosed ws).length ≤ ws.length := by
  induction ws with
  | nil => simp [ngramLoop]
  | cons w rest ih =>
    obtain ⟨i, path⟩ := w
    rw [ngramLoop]
    cases (path.dropWhile (fun t => t.right < i + cfg.ngram)).drop cfg.nancs with
    | nil => simp
    | cons t0 ts =>
      simp only [List.length_cons]
      omega

theorem ngramLoop_mem (cfg : NGCfg) (isFunc isClosed : String → Bool)
    (ws : List (ℕ × List SPT)) :
    ∀ q ∈ ngramLoop cfg isFunc isClosed ws, ∃ w ∈ ws, q.1 = w.1 := by
  induction ws with
  | nil => intro q hq; simp [ngramLoop] at hq
  | cons w rest ih =>
    obtain ⟨i, path⟩ := w
    intro q hq
    rw [ngramLoop] at hq
    cases hc : (path.dropWhile (fun t => t.right < i + cfg.ngram)).drop cfg.nancs with
    | nil => rw [hc] at hq; simp at hq
    | cons t0 ts =>
      rw [hc] at hq
      simp only at hq
      rw [List.mem_cons] at hq
      rcases hq with hq | hq
      · exact ⟨(i, path), List.mem_cons_self _ _, by rw [hq]⟩
      · obtain ⟨w', hw', he⟩ := ih q hq
        exact ⟨w', List.mem_cons_of_mem _ hw', he⟩

theorem ngramLoop_length_eq (cfg : NGCfg) (isFunc isClosed : String → Bool)
    (ws : List (ℕ × List SPT))
    (h : ∀ w ∈ ws,
      (w.2.dropWhile (fun t => t.right < w.1 + cfg.ngram)).drop cfg.nancs ≠ []) :
    (ngramLoop cfg isFunc isClosed ws).length = ws.length := by
  induction ws with
  | nil => rfl
  | cons w rest ih =>
    obtain ⟨i, path⟩ := w
    rw [ngramLoop]
    cases hc : (path.dropWhile (fun t => t.right < i + cfg.ngram)).drop cfg.nancs with
    | nil => exact absurd hc (h (i, path) (List.mem_cons_self _ _))
    | cons t0 ts =>
      simp only [List.length_cons]
      rw [ih (fun w hw => h w (List.mem_cons_of_mem _ hw))]

/-! ### Claim C10 -/

/-- A flat tree: `S` over three preterminals `A B C`. -/
def exNGTree : SPT :=
  .node "S" 0 3
    (.node "A" 0 1 (.node "a" 0 1 .null .null)
      (.node "B" 1 2 (.node "b" 1 2 .null .null)
        (.node "C" 2 3 (.node "c" 2 3 .null .null) .null)))
    .null

/-- **C10 is false as stated.**  With `ngram = 1` and `nancs = 2` on a
flat 3-word tree, two window start indices satisfy
`i + ngram < #preterminals`, but climbing 2 extra ancestors from the
first window runs above the root, and the `return` aborts the whole
loop: no fragment at all is enumerated, not one per qualifying
window. -/
theorem C10_counterexample :
    (preterminal_nodes exNGTree).length = 3 ∧
    ((List.range (preterminal_nodes exNGTree).length).filter
        (fun i => i + 1 < (preterminal_nodes exNGTree).length)).length = 2 ∧
    tree_featurecount ⟨1, LexT.none, false, 2⟩
      (fun _ => false) (fun _ => false) exNGTree = [] := by decide

/-- **C10 (amended).** For every tree, `NGramTree` processes window
start indices `i` with `i + ngram` strictly below the number of
preterminals, in increasing order, emitting at most one fragment per
index and aborting all remaining windows if climbing `nancs` extra
ancestors runs above the root.  Hence every enumerated window satisfies
`i + ngram < #preterminals` (the window ending at the sentence's final
word is never enumerated), a sentence with exactly `ngram` preterminal
words yields no instances, and when `nancs = 0` exactly one fragment is
emitted per qualifying window start. -/
theorem C10_ngram_windows (cfg : NGCfg) (isFunc isClosed : String → Bool)
    (root : SPT) (hnext : root.next = SPT.null)
    (hwf : (preterminal_nodes root).length ≤ root.right) :
    ((preterminal_nodes root).length = cfg.ngram →
      tree_featurecount cfg isFunc isClosed root = []) ∧
    (∀ q ∈ tree_featurecount cfg isFunc isClosed root,
      q.1 + cfg.ngram < (preterminal_nodes root).length) ∧
    (tree_featurecount cfg isFunc isClosed root).length ≤
      (preterminal_nodes root).length - cfg.ngram ∧
    (cfg.nancs = 0 →
      (tree_featurecount cfg isFunc isClosed root).length =
        (preterminal_nodes root).length - cfg.ngram) := by
  refine ⟨?_, ?_, ?_, ?_⟩
  · intro hn
    rw [tree_featurecount]
    simp [hn, ngramLoop]
  · intro q hq
    rw [tree_featurecount] at hq
    obtain ⟨w, hw, he⟩ := ngramLoop_mem _ _ _ _ q hq
    rw [List.mem_map] at hw
    obtain ⟨i, hi, hwi⟩ := hw
    rw [List.mem_range] at hi
    rw [he, ← hwi]
    simp only
    omega
  · rw [tree_featurecount]
    calc (ngramLoop cfg isFunc isClosed _).length
        ≤ _ := ngramLoop_length_le _ _ _ _
      _ = (preterminal_nodes root).length - cfg.ngram := by simp
  · intro h0
    rw [tree_featurecount]
    rw [ngramLoop_length_eq]
    · simp
    · intro w hw
      rw [List.mem_map] at hw
      obtain ⟨i, hi, hwi⟩ := hw
      rw [List.mem_range] at hi
      rw [← hwi]
      simp only [h0, List.drop_zero]
      have hilt : i < (ancestor_paths root []).length := by
        rw [ancestor_paths_length root []]
        omega
      have hpath : (ancestor_paths root []).getD i [] ∈ ancestor_paths root [] := by
        rw [List.getD_eq_getElem?_getD, List.getElem?_eq_getElem hilt]
        exact List.getElem_mem hilt
      have hroot := root_mem_ancestor_paths root hnext _ hpath
      intro hnil
      rw [List.dropWhile_eq_nil_iff] at hnil
      have := hnil root hroot
      simp only [decide_eq_true_eq] at this
      omega

/-- Witness for the amended C10: the flat 3-word tree with `ngram = 1`
and `nancs = 0` yields exactly 2 fragments. -/
theorem C10_ngram_windows_witness :
    exNGTree.next = SPT.null ∧
    (preterminal_nodes exNGTree).length ≤ exNGTree.right ∧
    (tree_featurecount ⟨1, LexT.none, false, 0⟩
        (fun _ => false) (fun _ => false) exNGTree).length =
      (preterminal_nodes exNGTree).length - 1 := by
  have h := C10_ngram_windows ⟨1, LexT.none, false, 0⟩
    (fun _ => false) (fun _ => false) exNGTree rfl (by decide)
  exact ⟨rfl, by decide, h.2.2.2 rfl⟩

end ExtractSP
